import Mathlib

/-!
Verification of the coderev semantic code-graph engine.

This file gives a shallow embedding, in Lean 4, of the data model and the
operations of the coderev indexing/resolution pipeline: the symbol URI
(src/uri.rs), the symbol and edge model (src/symbol.rs, src/edge.rs), the
SQLite-backed store viewed as lists of rows (src/storage/sqlite.rs with the
schema of src/storage/schema.rs), the two resolver stages
(src/linker/global_linker.rs and src/linker/semantic_linker.rs), the document
chunker (src/adapter/chunker.rs), and the tree-sitter query adapter
(src/adapter/query_adapter.rs, with the tree-sitter parse tree kept opaque).

Rust strings are modelled as lists of characters (`Str`), except in the
chunker where Rust indexes raw UTF-8 bytes and the model therefore works on
lists of bytes.  Machine floats (`f32` confidences and similarity scores) are
modelled as rationals; the cosine-similarity numeric kernel itself is kept as
an opaque parameter where a theorem ranges over it, since its float value is
not reproducible in exact arithmetic, while all the logic around it
(thresholding, sorting, clamping, upserts) is embedded exactly.
-/

namespace Coderev

/-- Rust `String` / `&str`, viewed as its sequence of characters. -/
abbrev Str := List Char

/-! ### String splitting helpers (Rust `split_once`, `rsplit_once`, `strip_prefix`) -/

/-- Rust `str::split_once(sep)`: split at the first occurrence of `sep`. -/
def splitOnce (sep : Char) : Str → Option (Str × Str)
  | [] => none
  | c :: cs =>
    if c = sep then some ([], cs)
    else (splitOnce sep cs).map (fun p => (c :: p.1, p.2))

/-- Rust `str::rsplit_once(sep)`: split at the last occurrence of `sep`. -/
def rsplitOnce (sep : Char) (s : Str) : Option (Str × Str) :=
  match splitOnce sep s.reverse with
  | some p => some (p.2.reverse, p.1.reverse)
  | none => none

/-- Rust `str::strip_prefix(p)`: drop a leading occurrence of `p`, or fail. -/
def dropLead : Str → Str → Option Str
  | [], s => some s
  | _ :: _, [] => none
  | p :: ps, c :: cs => if c = p then dropLead ps cs else none

/-! ### Decimal numbers: Rust `u32::from_str` and the `Display` of `u32` -/

/-- ASCII digit test used by `u32` parsing. -/
def isDigitChar (c : Char) : Bool :=
  decide (48 ≤ c.toNat) && decide (c.toNat ≤ 57)

/-- Accumulating loop of Rust `u32::from_str`: each digit is folded in and the
    running value is checked against the `u32` range. -/
def parseU32Go : Str → Nat → Option Nat
  | [], acc => some acc
  | c :: cs, acc =>
    if isDigitChar c then
      let v := acc * 10 + (c.toNat - 48)
      if v < 4294967296 then parseU32Go cs v else none
    else none

/-- Rust `u32::from_str`: an optional leading plus sign, then a nonempty
    string of ASCII digits whose value fits in 32 bits. -/
def parseU32 (s : Str) : Option Nat :=
  let digits := if s.head? = some '+' then s.tail else s
  match digits with
  | [] => none
  | _ :: _ => parseU32Go digits 0

/-- Reference form of decimal rendering (used only in proofs). -/
def digitsRec (n : Nat) : Str :=
  if _h : n < 10 then [Nat.digitChar n]
  else digitsRec (n / 10) ++ [Nat.digitChar (n % 10)]
termination_by n
decreasing_by
  exact Nat.div_lt_self (by omega) (by omega)

/-- Structural worker for decimal rendering; the first argument is fuel,
    and any fuel at least `n` yields the digits of `n` (shown below). -/
def natToDigitsGo : Nat → Nat → Str → Str
  | 0, n, acc => Nat.digitChar n :: acc
  | fuel + 1, n, acc =>
    if n < 10 then Nat.digitChar n :: acc
    else natToDigitsGo fuel (n / 10) (Nat.digitChar (n % 10) :: acc)

/-- Decimal rendering of a natural number, as Rust `Display` for `u32`
    produces it (most significant digit first, no sign, no leading zeros). -/
def natToDigits (n : Nat) : Str :=
  natToDigitsGo n n []

/-! ### Symbol kinds (src/symbol.rs) -/

/-- The five universal symbol kinds of `src/symbol.rs`. -/
inductive SymbolKind where
  | Namespace
  | Container
  | Callable
  | Value
  | Document
deriving DecidableEq, Repr

/-- `SymbolKind::as_str`. -/
def SymbolKind.asStr : SymbolKind → Str
  | .Namespace => "namespace".toList
  | .Container => "container".toList
  | .Callable => "callable".toList
  | .Value => "value".toList
  | .Document => "document".toList

/-- `SymbolKind::from_str` of `src/symbol.rs`: lowercases its input (the
    inputs that occur here are ASCII, for which Rust `to_lowercase` is the
    per-character map) and matches the canonical names and their aliases. -/
def SymbolKind.fromStr (s : Str) : Option SymbolKind :=
  let t := s.map Char.toLower
  if t = "namespace".toList ∨ t = "ns".toList ∨ t = "module".toList ∨
     t = "package".toList ∨ t = "file".toList then some .Namespace
  else if t = "container".toList ∨ t = "class".toList ∨ t = "struct".toList ∨
     t = "trait".toList ∨ t = "interface".toList then some .Container
  else if t = "callable".toList ∨ t = "function".toList ∨ t = "method".toList ∨
     t = "fn".toList ∨ t = "def".toList then some .Callable
  else if t = "value".toList ∨ t = "field".toList ∨ t = "variable".toList ∨
     t = "var".toList ∨ t = "const".toList ∨ t = "let".toList then some .Value
  else if t = "document".toList ∨ t = "doc".toList ∨ t = "chunk".toList ∨
     t = "text".toList then some .Document
  else none

/-! ### Symbol URIs (src/uri.rs) -/

/-- `SymbolUri` of `src/uri.rs`: the five-component identity of a symbol.
    `line` is a `u32` in the source; bounds appear as hypotheses where they
    matter. -/
structure SymbolUri where
  repo : Str
  path : Str
  kind : SymbolKind
  name : Str
  line : Nat
deriving DecidableEq, Repr

/-- `SymbolUri::to_uri_string`:
    `codescope://<repo>/<path>#<kind>:<name>@<line>`. -/
def SymbolUri.toUriString (u : SymbolUri) : Str :=
  "codescope://".toList ++ u.repo ++ '/' :: u.path ++ '#' ::
    u.kind.asStr ++ ':' :: u.name ++ '@' :: natToDigits u.line

/-- `SymbolUri::parse` of `src/uri.rs`: strip the scheme, split at the first
    `#`, split the front at the first `/`, split the fragment at the last `@`,
    split the remainder at the first `:`, then decode the kind and the line. -/
def SymbolUri.parse (s : Str) : Option SymbolUri :=
  (dropLead "codescope://".toList s).bind fun rest =>
  (splitOnce '#' rest).bind fun rp =>
  (splitOnce '/' rp.1).bind fun rr =>
  (rsplitOnce '@' rp.2).bind fun kl =>
  (splitOnce ':' kl.1).bind fun kn =>
  (SymbolKind.fromStr kn.1).bind fun kind =>
  (parseU32 kl.2).map fun line =>
  { repo := rr.1, path := rr.2, kind := kind, name := kn.2, line := line }

/-! ### Edges (src/edge.rs) -/

/-- The six edge kinds of `src/edge.rs`. -/
inductive EdgeKind where
  | Defines
  | Contains
  | Calls
  | References
  | Inherits
  | Exports
deriving DecidableEq, Repr

/-- `EdgeKind::all`. -/
def EdgeKind.all : List EdgeKind :=
  [.Defines, .Contains, .Calls, .References, .Inherits, .Exports]

/-- `EdgeKind::as_str`. -/
def EdgeKind.asStr : EdgeKind → Str
  | .Defines => "defines".toList
  | .Contains => "contains".toList
  | .Calls => "calls".toList
  | .References => "references".toList
  | .Inherits => "inherits".toList
  | .Exports => "exports".toList

/-- `EdgeKind::reverse` of `src/edge.rs`: every kind maps to itself. -/
def EdgeKind.reverse : EdgeKind → EdgeKind
  | .Defines => .Defines
  | .Contains => .Contains
  | .Calls => .Calls
  | .References => .References
  | .Inherits => .Inherits
  | .Exports => .Exports

/-- Clamp to `[0, 1]`, Rust `f32::clamp(0.0, 1.0)`. -/
def clamp01 (q : ℚ) : ℚ := min (max q 0) 1

/-- `Edge` of `src/edge.rs`.  The `f32` confidence is modelled as a
    rational. -/
structure Edge where
  fromUri : SymbolUri
  toUri : SymbolUri
  kind : EdgeKind
  confidence : ℚ
deriving DecidableEq, Repr

/-- `Edge::new`: a deterministic edge with confidence 1. -/
def Edge.mk1 (f t : SymbolUri) (k : EdgeKind) : Edge :=
  { fromUri := f, toUri := t, kind := k, confidence := 1 }

/-- `Edge::with_confidence`: the given confidence clamped to `[0, 1]`. -/
def Edge.withConfidence (f t : SymbolUri) (k : EdgeKind) (c : ℚ) : Edge :=
  { fromUri := f, toUri := t, kind := k, confidence := clamp01 c }

/-- `Edge::reversed`: swap `from` and `to`, keep kind and confidence. -/
def Edge.reversed (e : Edge) : Edge :=
  { fromUri := e.toUri, toUri := e.fromUri, kind := e.kind,
    confidence := e.confidence }

/-! ### Generic string search helpers used by the store -/

/-- The pattern is a leading segment of the string (Rust `starts_with`). -/
def leadsOf : Str → Str → Bool
  | [], _ => true
  | _ :: _, [] => false
  | p :: ps, c :: cs => decide (p = c) && leadsOf ps cs

/-- The pattern is a trailing segment of the string (Rust `ends_with`). -/
def endsOf (pat s : Str) : Bool := leadsOf pat.reverse s.reverse

/-- Rust `str::contains` for a plain pattern: some tail starts with it. -/
def hasSub (pat : Str) : Str → Bool
  | [] => decide (pat = [])
  | c :: cs => leadsOf pat (c :: cs) || hasSub pat cs

/-- ASCII case folding, the folding SQLite applies inside `LIKE`. -/
def foldAscii (c : Char) : Char :=
  if 65 ≤ c.toNat ∧ c.toNat ≤ 90 then Char.ofNat (c.toNat + 32) else c

/-- Worker for the `%` wildcard: try the continuation on every suffix. -/
def sqlLikePct (matchRest : Str → Bool) : Str → Bool
  | [] => matchRest []
  | c :: cs => matchRest (c :: cs) || sqlLikePct matchRest cs

/-- SQLite `LIKE`: `%` matches any sequence, `_` any single character, and
    plain characters compare ASCII-case-insensitively. -/
def sqlLike : Str → Str → Bool
  | [], s => decide (s = [])
  | '%' :: ps, s => sqlLikePct (sqlLike ps) s
  | '_' :: ps, s =>
    (match s with
     | [] => false
     | _ :: cs => sqlLike ps cs)
  | p :: ps, s =>
    (match s with
     | [] => false
     | c :: cs => decide (foldAscii p = foldAscii c) && sqlLike ps cs)

/-- Bytewise (equivalently, codepoint-lexicographic) strict order on strings:
    the order SQLite's default BINARY collation gives `ORDER BY path ASC`. -/
def strLt : Str → Str → Bool
  | [], [] => false
  | [], _ :: _ => true
  | _ :: _, [] => false
  | a :: as, b :: bs =>
    if a.toNat < b.toNat then true
    else if a.toNat = b.toNat then strLt as bs
    else false

/-- Worker for `splitWs`, carrying the current token in reverse. -/
def splitWsGo : Str → Str → List Str
  | [], cur => if cur = [] then [] else [cur.reverse]
  | c :: cs, cur =>
    if c.isWhitespace then
      if cur = [] then splitWsGo cs [] else cur.reverse :: splitWsGo cs []
    else splitWsGo cs (c :: cur)

/-- Rust `str::split_whitespace`: maximal runs of non-whitespace characters.
    The queries this model is applied to are ASCII, where Lean's and Rust's
    whitespace predicates agree. -/
def splitWs (s : Str) : List Str :=
  splitWsGo s []

/-- Stable insertion of one element: placed before the first strictly-later
    element and after everything equivalent to it. -/
def insSorted (le : α → α → Bool) (x : α) : List α → List α
  | [] => [x]
  | y :: ys =>
    if le x y && ! le y x then x :: y :: ys else y :: insSorted le x ys

/-- Stable sort with respect to a total preorder `le`.  Rust's `sort_by` and
    SQLite's `ORDER BY` are modelled with this: a stable sort's output is
    determined by `le` and the input order, so any stable sort gives the
    same list. -/
def sortBy (le : α → α → Bool) (l : List α) : List α :=
  l.foldl (fun acc x => insSorted le x acc) []

/-! ### The store, as lists of rows (src/storage/sqlite.rs, schema.rs)

Each SQLite table becomes a list of row records, in insertion order.  TEXT
columns that the source fills from `as_str` of an enum (`kind` columns) are
modelled with the enum itself, which is faithful because `as_str` is
injective; URI TEXT columns are kept as strings because the source re-parses
them on every read.  The `edges.resolution_mode` column carries no semantics
for any claim and the spec tolerates but does not require it; it is
omitted. -/

/-- A row of the `symbols` table. -/
structure SymbolRow where
  uri : Str
  kind : SymbolKind
  name : Str
  path : Str
  lineStart : Nat
  lineEnd : Nat
  doc : Option Str
  signature : Option Str
  content : Str
deriving DecidableEq, Repr

/-- A row of the `edges` table (`UNIQUE(from_uri, to_uri, kind)`). -/
structure EdgeRow where
  fromUri : Str
  toUri : Str
  kind : EdgeKind
  confidence : ℚ
deriving DecidableEq, Repr

/-- A row of the `embeddings` table (key `uri`). -/
structure EmbeddingRow where
  uri : Str
  vector : List ℚ
deriving DecidableEq, Repr

/-- A row of the `unresolved_references` table. -/
structure UnresolvedRow where
  id : Int
  fromUri : Str
  name : Str
  receiver : Option Str
  scopeId : Int
  filePath : Str
  line : Nat
  refKind : Str
  isExternal : Bool
deriving DecidableEq, Repr

/-- A row of the `imports` table.  The `alias` column is called `aliasName`
    here because `alias` is a Lean keyword. -/
structure ImportRow where
  id : Int
  filePath : Str
  aliasName : Option Str
  targetNamespace : Str
  line : Option Nat
deriving DecidableEq, Repr

/-- A row of the `ambiguous_references` table. -/
structure AmbiguousRow where
  id : Int
  referenceId : Int
  candidateUri : Str
  score : ℚ
deriving DecidableEq, Repr

/-- The whole database: one list of rows per table. -/
structure Store where
  symbols : List SymbolRow
  edges : List EdgeRow
  embeddings : List EmbeddingRow
  callsiteEmbeddings : List (Int × List ℚ)
  unresolved : List UnresolvedRow
  imports : List ImportRow
  ambiguous : List AmbiguousRow
  fileHash : List (Str × Str)
deriving DecidableEq, Repr

/-- The in-memory `Symbol` struct (src/symbol.rs) as read back from a row. -/
structure Symbol where
  uri : SymbolUri
  kind : SymbolKind
  name : Str
  path : Str
  lineStart : Nat
  lineEnd : Nat
  doc : Option Str
  signature : Option Str
  content : Str
deriving DecidableEq, Repr

/-- `row_to_symbol`: re-parse the stored URI text; rows whose URI fails to
    parse are dropped by every caller (`filter_map(|r| r.ok())`). -/
def rowToSymbol (r : SymbolRow) : Option Symbol :=
  (SymbolUri.parse r.uri).map fun u =>
    { uri := u, kind := r.kind, name := r.name, path := r.path,
      lineStart := r.lineStart, lineEnd := r.lineEnd, doc := r.doc,
      signature := r.signature, content := r.content }

/-- `row_to_edge`: re-parse both URI texts and rebuild the edge through
    `Edge::with_confidence` (so the stored confidence is clamped on read). -/
def rowToEdge (r : EdgeRow) : Option Edge :=
  (SymbolUri.parse r.fromUri).bind fun f =>
  (SymbolUri.parse r.toUri).map fun t =>
  Edge.withConfidence f t r.kind r.confidence

/-- Serialization of an `Edge` into an `edges` row, as `insert_edge` binds
    its parameters. -/
def edgeRowOf (e : Edge) : EdgeRow :=
  { fromUri := e.fromUri.toUriString, toUri := e.toUri.toUriString,
    kind := e.kind, confidence := e.confidence }

/-- Two edge rows collide on the `UNIQUE(from_uri, to_uri, kind)` index. -/
def sameTriple (a b : EdgeRow) : Bool :=
  decide (a.fromUri = b.fromUri) && decide (a.toUri = b.toUri) &&
    decide (a.kind = b.kind)

/-- `insert_edge`: a plain `INSERT OR REPLACE` against the unique triple
    index — any row with the same `(from, to, kind)` is replaced by the new
    row, whatever the two confidences are. -/
def insertEdge (st : Store) (e : Edge) : Store :=
  let r := edgeRowOf e
  { st with edges := st.edges.filter (fun x => ! sameTriple x r) ++ [r] }

/-- `get_edges_from`: rows whose `from_uri` text matches, re-read through
    `row_to_edge`. -/
def getEdgesFrom (st : Store) (u : SymbolUri) : List Edge :=
  (st.edges.filter (fun r => decide (r.fromUri = u.toUriString))).filterMap
    rowToEdge

/-- `find_symbols_in_file`: `WHERE path = ? ORDER BY line_start`, then
    `row_to_symbol` with parse failures dropped. -/
def findSymbolsInFile (st : Store) (p : Str) : List Symbol :=
  ((sortBy (fun a b => decide (a.lineStart ≤ b.lineStart))
      (st.symbols.filter (fun r => decide (r.path = p)))).filterMap
    rowToSymbol)

/-- `find_symbols_by_name`: `WHERE name = ?`. -/
def findSymbolsByName (st : Store) (name : Str) : List Symbol :=
  (st.symbols.filter (fun r => decide (r.name = name))).filterMap rowToSymbol

/-- `find_symbols_by_name_and_file`: `WHERE name = ? AND path = ?`. -/
def findSymbolsByNameAndFile (st : Store) (name p : Str) : List Symbol :=
  (st.symbols.filter
      (fun r => decide (r.name = name) && decide (r.path = p))).filterMap
    rowToSymbol

/-- `find_symbols_by_name_and_container_pattern`:
    `WHERE name = ? AND uri LIKE '%/<ns>%'`. -/
def findSymbolsByNameAndContainerPattern (st : Store) (name ns : Str) :
    List Symbol :=
  let pat := '%' :: '/' :: ns ++ ['%']
  (st.symbols.filter
      (fun r => decide (r.name = name) && sqlLike pat r.uri)).filterMap
    rowToSymbol

/-- Secondary ordering key of `get_recent_symbols`:
    `ORDER BY path ASC, line_start ASC`. -/
def pathLineLe (a b : SymbolRow) : Bool :=
  strLt a.path b.path ||
    (decide (a.path = b.path) && decide (a.lineStart ≤ b.lineStart))

/-- `get_recent_symbols`: all symbols ordered by path then start line, the
    SQL `LIMIT` applied to the rows, parse failures dropped afterwards. -/
def getRecentSymbols (st : Store) (limit : Nat) : List Symbol :=
  (((sortBy pathLineLe st.symbols).take limit).filterMap rowToSymbol)

/-- Per-path score multiplier `get_file_boost` (sqlite.rs). -/
def fileBoost (p : Str) : ℚ :=
  let l := p.map Char.toLower
  if endsOf ".rs".toList l || endsOf ".py".toList l || endsOf ".js".toList l ||
     endsOf ".ts".toList l || endsOf ".tsx".toList l ||
     endsOf ".jsx".toList l || endsOf ".go".toList l ||
     endsOf ".c".toList l || endsOf ".cpp".toList l ||
     endsOf ".h".toList l then 6/5
  else if endsOf ".md".toList l || endsOf ".txt".toList l ||
     hasSub "readme".toList l then 9/10
  else if endsOf ".json".toList l || endsOf ".yaml".toList l ||
     endsOf ".yml".toList l || endsOf ".toml".toList l then 7/10
  else if endsOf ".svg".toList l || endsOf ".png".toList l ||
     endsOf ".lock".toList l || endsOf ".sum".toList l ||
     hasSub "node_modules".toList l || hasSub "target/".toList l then 1/2
  else 1

/-- The per-row match condition `search_content` builds: every `%word%`
    pattern must hit `content`, `name` or `doc` (a NULL `doc` never
    matches). -/
def searchCond (words : List Str) (r : SymbolRow) : Bool :=
  words.all fun w =>
    sqlLike w r.content || sqlLike w r.name ||
      (match r.doc with
       | some d => sqlLike w d
       | none => false)

/-- `search_content`: whitespace-tokenize the query into `%word%` patterns;
    with no tokens, fall back to `get_recent_symbols` (the `kind` filter is
    not applied on that path); otherwise filter, apply `LIMIT`, and sort the
    returned symbols by file boost descending. -/
def searchContent (st : Store) (query : Str) (kind : Option SymbolKind)
    (limit : Nat) : List Symbol :=
  let words := (splitWs query).map (fun w => '%' :: w ++ ['%'])
  if words = [] then getRecentSymbols st limit
  else
    let kindOk := fun (r : SymbolRow) =>
      match kind with
      | some k => decide (r.kind = k)
      | none => true
    let rows := (st.symbols.filter
        (fun r => searchCond words r && kindOk r)).take limit
    sortBy (fun a b => decide (fileBoost b.path ≤ fileBoost a.path))
      (rows.filterMap rowToSymbol)

/-- `get_all_unresolved`: `SELECT ... FROM unresolved_references` — no
    `WHERE` clause at all. -/
def getAllUnresolved (st : Store) : List UnresolvedRow :=
  st.unresolved

/-- `count_unresolved`: `WHERE is_external = 0`. -/
def countUnresolved (st : Store) : Nat :=
  (st.unresolved.filter (fun r => ! r.isExternal)).length

/-- `get_unresolved_in_file`: `WHERE file_path = ?`. -/
def getUnresolvedInFile (st : Store) (p : Str) : List UnresolvedRow :=
  st.unresolved.filter (fun r => decide (r.filePath = p))

/-- `delete_unresolved`: `DELETE ... WHERE id = ?`. -/
def deleteUnresolved (st : Store) (id : Int) : Store :=
  { st with unresolved := st.unresolved.filter (fun r => ! decide (r.id = id)) }

/-- `mark_unresolved_as_external`: `UPDATE ... SET is_external = 1 WHERE
    id = ?`. -/
def markUnresolvedAsExternal (st : Store) (id : Int) : Store :=
  { st with unresolved := st.unresolved.map fun r =>
      if r.id = id then { r with isExternal := true } else r }

/-- `get_imports_for_file`: `WHERE file_path = ?`. -/
def getImportsForFile (st : Store) (p : Str) : List ImportRow :=
  st.imports.filter (fun r => decide (r.filePath = p))

/-- `insert_ambiguous_reference` (the AUTOINCREMENT row id is never read by
    anything modelled here and is stored as 0). -/
def insertAmbiguousReference (st : Store) (rid : Int) (uri : Str) (score : ℚ) :
    Store :=
  { st with ambiguous := st.ambiguous ++
      [{ id := 0, referenceId := rid, candidateUri := uri, score := score }] }

/-- `insert_callsite_embedding`: `INSERT OR REPLACE` keyed on
    `reference_id`. -/
def insertCallsiteEmbedding (st : Store) (rid : Int) (v : List ℚ) : Store :=
  { st with callsiteEmbeddings :=
      st.callsiteEmbeddings.filter (fun c => ! decide (c.1 = rid)) ++ [(rid, v)] }

/-- Step of the first loop of `delete_file_data`: for one symbol of the file,
    delete its outgoing edges, its incoming edges, and its embedding row. -/
def delSymStep (acc : Store) (s : Symbol) : Store :=
  let u := s.uri.toUriString
  { acc with
    edges := (acc.edges.filter (fun r => ! decide (r.fromUri = u))).filter
      (fun r => ! decide (r.toUri = u)),
    embeddings := acc.embeddings.filter (fun r => ! decide (r.uri = u)) }

/-- Step of the second loop of `delete_file_data`: for one unresolved
    reference of the file, delete its ambiguous rows and its call-site
    embedding. -/
def delRefStep (acc : Store) (r : UnresolvedRow) : Store :=
  { acc with
    ambiguous := acc.ambiguous.filter (fun a => ! decide (a.referenceId = r.id)),
    callsiteEmbeddings :=
      acc.callsiteEmbeddings.filter (fun c => ! decide (c.1 = r.id)) }

/-- `delete_file_data` (sqlite.rs lines 853–897), step for step: clean up
    per-symbol edges and embeddings, delete the file's symbol rows, clean up
    per-reference ambiguous and call-site rows, delete the file's unresolved
    references, imports, and file-hash row. -/
def deleteFileData (st : Store) (p : Str) : Store :=
  let syms := findSymbolsInFile st p
  let st1 := syms.foldl delSymStep st
  let st2 := { st1 with symbols :=
      st1.symbols.filter (fun r => ! decide (r.path = p)) }
  let refs := getUnresolvedInFile st2 p
  let st3 := refs.foldl delRefStep st2
  let st4 := { st3 with unresolved :=
      st3.unresolved.filter (fun r => ! decide (r.filePath = p)) }
  let st5 := { st4 with imports :=
      st4.imports.filter (fun i => ! decide (i.filePath = p)) }
  { st5 with fileHash := st5.fileHash.filter (fun h => ! decide (h.1 = p)) }

/-! ### Stage A — the global (lexical) linker (src/linker/global_linker.rs) -/

/-- Last dotted segment: `target_namespace.split('.').last()` (`split` always
    yields at least one segment, so the `unwrap_or` arm is dead). -/
def lastDotSegment (s : Str) : Str :=
  match rsplitOnce '.' s with
  | some p => p.2
  | none => s

/-- The import-matching test of Step 2: with a receiver, the import matches
    when its alias equals the receiver, or — alias absent — when the last
    dotted segment of its target namespace equals the receiver; without a
    receiver, only an alias equal to the referenced name matches. -/
def importMatches (r : UnresolvedRow) (imp : ImportRow) : Bool :=
  match r.receiver with
  | some recv =>
    (match imp.aliasName with
     | some a => decide (a = recv)
     | none => decide (lastDotSegment imp.targetNamespace = recv))
  | none =>
    (match imp.aliasName with
     | some a => decide (a = r.name)
     | none => false)

/-- Insertion into the candidate `HashSet`, modelled as an append-if-absent
    on a duplicate-free list (only membership in the set is ever observed). -/
def candInsert (l : List SymbolUri) (c : SymbolUri) : List SymbolUri :=
  if c ∈ l then l else l ++ [c]

/-- The two mutable locals of the per-reference loop of
    `GlobalLinker::run`. -/
structure ResolveState where
  matched : Option SymbolUri
  candidates : List SymbolUri
deriving DecidableEq, Repr

/-- Step 1 — local resolution: symbols with the same name in the same file;
    a unique one binds, several become candidates. -/
def glStep1 (st : Store) (r : UnresolvedRow) : ResolveState :=
  match findSymbolsByNameAndFile st r.name r.filePath with
  | [] => { matched := none, candidates := [] }
  | [s] => { matched := some s.uri, candidates := [] }
  | locals =>
    { matched := none,
      candidates := locals.foldl (fun acc s => candInsert acc s.uri) [] }

/-- Step 2 — import-qualified resolution, run only when Step 1 produced
    neither a match nor candidates; the loop over imports has no early exit,
    so a later matching import can overwrite `matched`. -/
def glStep2 (st : Store) (r : UnresolvedRow) (s1 : ResolveState) :
    ResolveState :=
  if s1.matched = none ∧ s1.candidates = [] then
    (getImportsForFile st r.filePath).foldl
      (fun acc imp =>
        if importMatches r imp then
          match findSymbolsByNameAndContainerPattern st r.name
              imp.targetNamespace with
          | [] => acc
          | [s] => { acc with matched := some s.uri }
          | ms =>
            { acc with
              candidates := ms.foldl (fun a s => candInsert a s.uri)
                acc.candidates }
        else acc)
      s1
  else s1

/-- Step 3 — global resolution, run only when Steps 1–2 produced neither a
    match nor candidates: all symbols with the referenced name, with no
    receiver-based filtering of any kind. -/
def glStep3 (st : Store) (r : UnresolvedRow) (s2 : ResolveState) :
    ResolveState :=
  if s2.matched = none ∧ s2.candidates = [] then
    match findSymbolsByName st r.name with
    | [] => s2
    | [s] => { s2 with matched := some s.uri }
    | gs =>
      { s2 with
        candidates := gs.foldl (fun a s => candInsert a s.uri) s2.candidates }
  else s2

/-- Outcome of the final decision of the per-reference loop. -/
inductive Outcome where
  | bound (target : SymbolUri)
  | boundFailedParse
  | ambiguous (cands : List SymbolUri)
  | external
deriving DecidableEq, Repr

/-- The decision `GlobalLinker::run` takes for one unresolved reference:
    run Steps 1–3, then bind (when `from_uri` parses), record ambiguity, or
    mark external. -/
def resolveDecision (st : Store) (r : UnresolvedRow) : Outcome :=
  let s := glStep3 st r (glStep2 st r (glStep1 st r))
  match s.matched with
  | some uri =>
    (match SymbolUri.parse r.fromUri with
     | some _ => .bound uri
     | none => .boundFailedParse)
  | none =>
    if s.candidates = [] then .external else .ambiguous s.candidates

/-- The store effect of one iteration of `GlobalLinker::run`: insert the
    resolved edge and delete the row, or write ambiguous rows, or mark the
    row external. -/
def applyResolve (st : Store) (r : UnresolvedRow) : Store :=
  match resolveDecision st r with
  | .bound uri =>
    (match SymbolUri.parse r.fromUri with
     | some fromU =>
       let kind := if r.refKind = "inherits".toList then EdgeKind.Inherits
         else EdgeKind.Calls
       deleteUnresolved (insertEdge st (Edge.withConfidence fromU uri kind 1))
         r.id
     | none => st)
  | .boundFailedParse => st
  | .ambiguous cands =>
    cands.foldl (fun acc u =>
      insertAmbiguousReference acc r.id u.toUriString 0) st
  | .external => markUnresolvedAsExternal st r.id

/-- Modelled from the spec: the candidate set the specification prescribes
    for Step 3 when the reference has a receiver — symbols with the
    referenced name that have an incoming `contains` edge from a symbol named
    like the receiver.  This definition follows the words of §4.6.1 Step 3
    and exists only to be compared against `glStep3` above. -/
def specStep3Candidates (st : Store) (r : UnresolvedRow) (recv : Str) :
    List Symbol :=
  (findSymbolsByName st r.name).filter fun s =>
    st.edges.any fun er =>
      decide (er.kind = EdgeKind.Contains) &&
      decide (er.toUri = s.uri.toUriString) &&
      st.symbols.any fun sr =>
        decide (sr.uri = er.fromUri) && decide (sr.name = recv)

/-! ### Stage B — the semantic linker (src/linker/semantic_linker.rs)

The numeric cosine kernel runs on `f32` vectors; theorems about the linker
quantify over the similarity function `sim`, embedding exactly the logic
around it: thresholding, descending sort, top-5 cut, the I1 skip check, and
the delete-or-mark decision. -/

/-- Default `SemanticLinker` threshold (0.6). -/
def semThreshold : ℚ := 3/5

/-- The match-collection loop: every cached symbol whose similarity to the
    call-site vector is at least the threshold, paired with its score. -/
def semMatches (sim : List ℚ → List ℚ → ℚ) (threshold : ℚ)
    (cached : List (SymbolUri × List ℚ)) (vector : List ℚ) :
    List (SymbolUri × ℚ) :=
  cached.filterMap fun p =>
    let score := sim vector p.2
    if threshold ≤ score then some (p.1, score) else none

/-- The edge-writing loop over the selected matches: re-parse `from_uri`
    (the `?` operator aborts the run on failure), skip a match when an edge
    with the same `(from, to, kind)` triple already exists with at least its
    confidence, insert otherwise, and remember whether anything was
    inserted. -/
def writeMatches (r : UnresolvedRow) :
    Store → Bool → List (SymbolUri × ℚ) → Option (Store × Bool)
  | st, matched, [] => some (st, matched)
  | st, matched, (u, score) :: rest =>
    match SymbolUri.parse r.fromUri with
    | none => none
    | some fromU =>
      let edge := Edge.withConfidence fromU u EdgeKind.Calls score
      let existing := (getEdgesFrom st fromU).find? fun e =>
        decide (e.toUri = edge.toUri) && decide (e.kind = edge.kind)
      match existing with
      | some ex =>
        if edge.confidence ≤ ex.confidence then writeMatches r st matched rest
        else writeMatches r (insertEdge st edge) true rest
      | none => writeMatches r (insertEdge st edge) true rest

/-- One iteration of the per-reference loop of `SemanticLinker::run`
    (lines 91–141): store the call-site embedding, collect and sort matches
    descending, write at most the top five, then delete the unresolved row
    when something was inserted and mark it external otherwise.  The
    returned Boolean is the loop's `matched` flag. -/
def processReference (sim : List ℚ → List ℚ → ℚ) (threshold : ℚ)
    (cached : List (SymbolUri × List ℚ)) (st : Store) (r : UnresolvedRow)
    (vector : List ℚ) : Option (Store × Bool) :=
  let st1 := insertCallsiteEmbedding st r.id vector
  let sorted := sortBy (fun a b => decide (b.2 ≤ a.2))
    (semMatches sim threshold cached vector)
  (writeMatches r st1 false (sorted.take 5)).map fun res =>
    (if res.2 then deleteUnresolved res.1 r.id
     else markUnresolvedAsExternal res.1 r.id, res.2)

/-! ### The document chunker (src/adapter/chunker.rs)

The chunker indexes raw UTF-8: `len`, slicing, `is_char_boundary` and the
break-point search all work on bytes, so here strings are lists of bytes. -/

/-- Rust `&str`, viewed as its UTF-8 byte sequence. -/
abbrev Bytes := List Nat

/-- The pattern is a leading segment of the byte string. -/
def leadsOfB : Bytes → Bytes → Bool
  | [], _ => true
  | _ :: _, [] => false
  | p :: ps, c :: cs => decide (p = c) && leadsOfB ps cs

/-- Split on a byte, keeping empty segments (`n+1` segments for `n`
    separators). -/
def splitOnByte (b : Nat) : Bytes → List Bytes
  | [] => [[]]
  | c :: cs =>
    let r := splitOnByte b cs
    if c = b then [] :: r
    else
      match r with
      | [] => [[c]]
      | h :: t => (c :: h) :: t

/-- Drop one trailing carriage return, as Rust `lines()` does per line. -/
def stripCR (l : Bytes) : Bytes :=
  if l.getLast? = some 13 then l.dropLast else l

/-- Rust `str::lines()`: split on `\n`, drop the trailing empty segment a
    final newline produces, strip one `\r` from the end of each line. -/
def rustLinesB (s : Bytes) : List Bytes :=
  if s = [] then []
  else
    let parts := splitOnByte 10 s
    let parts2 := if parts.getLast? = some [] then parts.dropLast else parts
    parts2.map stripCR

/-- Rust `str::is_char_boundary` on the UTF-8 bytes: position 0 and the end
    are boundaries, anything past the end is not, and an interior position is
    a boundary exactly when its byte is not a continuation byte. -/
def isCharBoundary (s : Bytes) (i : Nat) : Bool :=
  if i = 0 then true
  else
    match s[i]? with
    | some b => ! (decide (128 ≤ b) && decide (b < 192))
    | none => decide (i = s.length)

/-- The retracting loop `while !is_char_boundary(i) && i > 0 { i -= 1 }`. -/
def alignDown (s : Bytes) : Nat → Nat
  | 0 => 0
  | i + 1 => if isCharBoundary s (i + 1) then i + 1 else alignDown s i

/-- Structural worker for `alignUp`; the fuel starts at `s.length + 1`,
    enough for the loop to reach the end of the string. -/
def alignUpGo (s : Bytes) : Nat → Nat → Nat
  | 0, e => e
  | fuel + 1, e =>
    if isCharBoundary s e then e
    else if e < s.length then alignUpGo s fuel (e + 1)
    else e

/-- The advancing loop `while !is_char_boundary(e) && e < len { e += 1 }`. -/
def alignUp (s : Bytes) (e : Nat) : Nat :=
  alignUpGo s (s.length + 1) e

/-- Rust `str::rfind` for a nonempty plain pattern: the byte index of its
    last occurrence. -/
def rfindSubGo (pat : Bytes) : Bytes → Nat → Option Nat → Option Nat
  | [], _, best => best
  | c :: cs, i, best =>
    rfindSubGo pat cs (i + 1) (if leadsOfB pat (c :: cs) then some i else best)

/-- Rust `s.rfind(pat)`. -/
def rfindSub (pat s : Bytes) : Option Nat :=
  rfindSubGo pat s 0 none

/-- `find_break_point` (chunker.rs lines 187–233): scan the window
    `[target-500, target+500]` (retracted/advanced to char boundaries) for
    the last paragraph break, else the last newline, else the last space,
    else hard-cut at `chunk_size` retracted to a boundary. -/
def findBreakPoint (chunkSize : Nat) (content : Bytes) : Nat :=
  let target := chunkSize
  let startScan := alignDown content (if 500 < target then target - 500 else 0)
  let endScan := alignUp content (min (target + 500) content.length)
  if content.length ≤ startScan then content.length
  else
    let searchArea := (content.drop startScan).take (endScan - startScan)
    match rfindSub [10, 10] searchArea with
    | some pos => startScan + pos + 2
    | none =>
      match rfindSub [10] searchArea with
      | some pos => startScan + pos + 1
      | none =>
        match rfindSub [32] searchArea with
        | some pos => startScan + pos + 1
        | none => alignDown content (min target content.length)

/-- A chunk as produced by `split_into_chunks`. -/
structure Chunk where
  content : Bytes
  startLine : Nat
  endLine : Nat
deriving DecidableEq, Repr

/-- The mutable state of the chunking loop. -/
structure ChunkState where
  chunks : List Chunk
  cur : Bytes
  chunkStartLine : Nat
  currentLine : Nat
deriving DecidableEq, Repr

/-- One iteration of the line loop of `split_into_chunks`: append the line
    (with a separating newline when the current chunk is nonempty), and when
    `chunk_size` is reached either split at a usable break point — emitting
    the prefix and carrying back the last `overlap` bytes — or force-split
    the whole current chunk. -/
def chunkLine (chunkSize overlap : Nat) (st : ChunkState) (idx : Nat)
    (line : Bytes) : ChunkState :=
  let currentLine := idx + 1
  let cur := if st.cur = [] then line else st.cur ++ 10 :: line
  if chunkSize ≤ cur.length then
    let breakAt := findBreakPoint chunkSize cur
    if breakAt < cur.length ∧ 100 < breakAt then
      let chunkContent := cur.take breakAt
      let chunkLines := (rustLinesB chunkContent).length
      let rawOverlapStart := if overlap < breakAt then breakAt - overlap else 0
      let overlapStart := alignDown cur rawOverlapStart
      let cur2 := cur.drop overlapStart
      { chunks := st.chunks ++
          [{ content := chunkContent, startLine := st.chunkStartLine,
             endLine := st.chunkStartLine + chunkLines - 1 }],
        cur := cur2,
        chunkStartLine := currentLine - (rustLinesB cur2).length + 1,
        currentLine := currentLine }
    else
      { chunks := st.chunks ++
          [{ content := cur, startLine := st.chunkStartLine,
             endLine := currentLine }],
        cur := [], chunkStartLine := currentLine + 1,
        currentLine := currentLine }
  else
    { st with cur := cur, currentLine := currentLine }

/-- `split_into_chunks` (chunker.rs lines 95–184): small inputs become a
    single chunk; otherwise the line loop runs, and the final carry is
    emitted only when it has at least `MIN_CHUNK_SIZE` (100) bytes. -/
def splitIntoChunks (chunkSize overlap : Nat) (content : Bytes) :
    List Chunk :=
  let lines := rustLinesB content
  if lines = [] then []
  else if content.length ≤ chunkSize then
    [{ content := content, startLine := 1, endLine := lines.length }]
  else
    let final := lines.enum.foldl
      (fun st p => chunkLine chunkSize overlap st p.1 p.2)
      { chunks := [], cur := [], chunkStartLine := 1, currentLine := 0 }
    if final.cur ≠ [] ∧ 100 ≤ final.cur.length then
      final.chunks ++
        [{ content := final.cur, startLine := final.chunkStartLine,
           endLine := final.currentLine }]
    else final.chunks

/-- `DocumentChunker::new()`: chunk size 1000, overlap 100. -/
def defaultChunker : Nat × Nat := (1000, 100)

/-- `DocumentChunker::with_settings`: the chunk size is clamped up to
    `MIN_CHUNK_SIZE`, the overlap down to half the requested chunk size. -/
def withSettings (chunkSize overlap : Nat) : Nat × Nat :=
  (max chunkSize 100, min overlap (chunkSize / 2))

/-! ### The tree-sitter query adapter (src/adapter/query_adapter.rs)

The tree-sitter parse is opaque: a parsed file is represented by the end row
of the root node and the list of query matches, each match being the record
of captures the adapter reads.  Node text and positions are the opaque data
the captures carry; `extract_docstring` walks the opaque tree and is
represented by the docstring it returns for a body capture. -/

/-- The data `parse_file` reads from one captured node: its text and its
    0-indexed start and end rows. -/
structure CaptureNode where
  text : Str
  startRow : Nat
  endRow : Nat
deriving DecidableEq, Repr

/-- One query match: the captures `parse_file` looks up, each optional. -/
structure TSMatch where
  callableName : Option CaptureNode := none
  callableDef : Option CaptureNode := none
  callableParams : Option CaptureNode := none
  callableReturnType : Option CaptureNode := none
  callableBodyDoc : Option Str := none
  methodName : Option CaptureNode := none
  methodDef : Option CaptureNode := none
  methodParams : Option CaptureNode := none
  methodReturnType : Option CaptureNode := none
  containerName : Option CaptureNode := none
  containerDef : Option CaptureNode := none
  containerBodyDoc : Option Str := none
  callName : Option CaptureNode := none
  callReceiver : Option CaptureNode := none
  inheritsBase : Option CaptureNode := none
  importModule : Option CaptureNode := none
  importFromModule : Option CaptureNode := none
  importName : Option CaptureNode := none
  importAlias : Option CaptureNode := none
deriving DecidableEq, Repr

/-- An unresolved reference in the scope graph (scope::graph). -/
structure ScopeRef where
  name : Str
  line : Nat
  fromUri : SymbolUri
deriving DecidableEq, Repr

/-- An import in the scope graph (scope::graph). -/
structure ScopeImport where
  namespaceName : Str
  symbols : List Str
  aliasName : Option Str
  line : Nat
deriving DecidableEq, Repr

/-- `AdapterResult` (adapter/framework.rs): symbols, edges, and the scope
    graph's references and imports. -/
structure AdapterResult where
  symbols : List Symbol
  edges : List Edge
  references : List ScopeRef
  imports : List ScopeImport
deriving DecidableEq, Repr

/-- `Symbol::new`: the URI is built from the same repo, path, kind, name and
    start line. -/
def mkSymbol (repo path : Str) (kind : SymbolKind) (name : Str)
    (ls le : Nat) (content : Str) : Symbol :=
  { uri := { repo := repo, path := path, kind := kind, name := name,
             line := ls },
    kind := kind, name := name, path := path, lineStart := ls, lineEnd := le,
    doc := none, signature := none, content := content }

/-- Rust `path.rsplit('/').next()`: the basename (the iterator always yields
    at least one segment, so the `unwrap_or` arm is dead). -/
def basename (p : Str) : Str :=
  match rsplitOnce '/' p with
  | some q => q.2
  | none => p

/-- `file_name.strip_suffix(".py").unwrap_or(file_name)`: only a literal
    `.py` suffix is removed. -/
def stripSuffixPy (s : Str) : Str :=
  if endsOf ".py".toList s then s.take (s.length - 3) else s

/-- Modelled from the spec: the "file stem" of §4.3 — the basename with its
    extension removed.  This follows the words of the specification and
    exists only to be compared against the `stripSuffixPy` the source
    uses. -/
def fileStem (p : Str) : Str :=
  match rsplitOnce '.' (basename p) with
  | some q => q.1
  | none => basename p

/-- The signature text `format!("{}{}", params, return_type)` with the
    source's `unwrap_or("()")` defaults. -/
def buildSignature (params returnType : Option CaptureNode) : Str :=
  (match params with
   | some n => n.text
   | none => "()".toList) ++
  (match returnType with
   | some n => " -> ".toList ++ n.text
   | none => [])

/-- The loop state of `parse_file`: the accumulated result and the
    `current_class` / `current_function` trackers. -/
structure ParseState where
  result : AdapterResult
  currentClass : Option (Str × SymbolUri)
  currentFunction : Option (Str × SymbolUri)
deriving DecidableEq, Repr

/-- The `callable.name` clause of `parse_file`. -/
def stepCallable (repo path : Str) (nsUri : SymbolUri) (st : ParseState)
    (m : TSMatch) : ParseState :=
  match m.callableName with
  | none => st
  | some nameNode =>
    let name := nameNode.text
    let defNode := m.callableDef.getD nameNode
    let ls := defNode.startRow + 1
    let le := defNode.endRow + 1
    let uri : SymbolUri :=
      { repo := repo, path := path, kind := .Callable, name := name,
        line := ls }
    let sym :=
      { mkSymbol repo path .Callable name ls le defNode.text with
        signature := some (buildSignature m.callableParams
          m.callableReturnType),
        doc := m.callableBodyDoc }
    let edges := st.result.edges ++ [Edge.mk1 nsUri uri .Defines] ++
      (match st.currentClass with
       | some c => [Edge.mk1 c.2 uri .Contains]
       | none => [])
    { st with
      result := { st.result with
        symbols := st.result.symbols ++ [sym], edges := edges },
      currentFunction := some (name, uri) }

/-- The `method.name` clause of `parse_file`. -/
def stepMethod (repo path : Str) (st : ParseState) (m : TSMatch) :
    ParseState :=
  match m.methodName with
  | none => st
  | some nameNode =>
    let name := nameNode.text
    let defNode := m.methodDef.getD nameNode
    let ls := defNode.startRow + 1
    let le := defNode.endRow + 1
    let uri : SymbolUri :=
      { repo := repo, path := path, kind := .Callable, name := name,
        line := ls }
    let sym :=
      { mkSymbol repo path .Callable name ls le defNode.text with
        signature := some (buildSignature m.methodParams
          m.methodReturnType) }
    let edges := st.result.edges ++
      (match st.currentClass with
       | some c => [Edge.mk1 c.2 uri .Contains]
       | none => [])
    { st with
      result := { st.result with
        symbols := st.result.symbols ++ [sym], edges := edges },
      currentFunction := some (name, uri) }

/-- The `container.name` clause of `parse_file`. -/
def stepContainer (repo path : Str) (nsUri : SymbolUri) (st : ParseState)
    (m : TSMatch) : ParseState :=
  match m.containerName with
  | none => st
  | some nameNode =>
    let name := nameNode.text
    let defNode := m.containerDef.getD nameNode
    let ls := defNode.startRow + 1
    let le := defNode.endRow + 1
    let uri : SymbolUri :=
      { repo := repo, path := path, kind := .Container, name := name,
        line := ls }
    let sym :=
      { mkSymbol repo path .Container name ls le defNode.text with
        doc := m.containerBodyDoc }
    { st with
      result := { st.result with
        symbols := st.result.symbols ++ [sym],
        edges := st.result.edges ++ [Edge.mk1 nsUri uri .Defines] },
      currentClass := some (name, uri) }

/-- The `call.name` clause of `parse_file`. -/
def stepCall (st : ParseState) (m : TSMatch) : ParseState :=
  match m.callName with
  | none => st
  | some callNode =>
    (match st.currentFunction with
     | none => st
     | some f =>
       let fullName :=
         match m.callReceiver with
         | some recv => recv.text ++ '.' :: callNode.text
         | none => callNode.text
       { st with result := { st.result with
           references := st.result.references ++
             [{ name := fullName, line := callNode.startRow + 1,
                fromUri := f.2 }] } })

/-- The `inherits.base` clause of `parse_file`. -/
def stepInherits (st : ParseState) (m : TSMatch) : ParseState :=
  match m.inheritsBase with
  | none => st
  | some baseNode =>
    (match st.currentClass with
     | none => st
     | some c =>
       { st with result := { st.result with
           references := st.result.references ++
             [{ name := baseNode.text, line := baseNode.startRow + 1,
                fromUri := c.2 }] } })

/-- The `import.module` clause of `parse_file`. -/
def stepImportModule (st : ParseState) (m : TSMatch) : ParseState :=
  match m.importModule with
  | none => st
  | some moduleNode =>
    { st with result := { st.result with
        imports := st.result.imports ++
          [{ namespaceName := moduleNode.text, symbols := [],
             aliasName := none, line := moduleNode.startRow + 1 }] } }

/-- The `import.from_module` clause of `parse_file`. -/
def stepImportFrom (st : ParseState) (m : TSMatch) : ParseState :=
  match m.importFromModule with
  | none => st
  | some moduleNode =>
    { st with result := { st.result with
        imports := st.result.imports ++
          [{ namespaceName := moduleNode.text,
             symbols := match m.importName with
               | some n => [n.text]
               | none => [],
             aliasName := m.importAlias.map (fun n => n.text),
             line := moduleNode.startRow + 1 }] } }

/-- Processing of one query match (query_adapter.rs lines 125-314): the
    seven capture clauses, in source order. -/
def stepMatch (repo path : Str) (nsUri : SymbolUri) (st : ParseState)
    (m : TSMatch) : ParseState :=
  stepImportFrom
    (stepImportModule
      (stepInherits
        (stepCall
          (stepContainer repo path nsUri
            (stepMethod repo path
              (stepCallable repo path nsUri st m) m) m) m) m) m) m

/-- `QueryAdapter::parse_file` (query_adapter.rs lines 94–320): create the
    file's namespace symbol — its name is the basename with only a `.py`
    suffix stripped, its lines are 1 through the root node's end row plus
    one — then process every query match. -/
def parseFile (repo path : Str) (rootEndRow : Nat)
    (tsMatches : List TSMatch) : AdapterResult :=
  let fileName := basename path
  let moduleName := stripSuffixPy fileName
  let nsUri : SymbolUri :=
    { repo := repo, path := path, kind := .Namespace, name := moduleName,
      line := 1 }
  let nsSym := mkSymbol repo path .Namespace moduleName 1 (rootEndRow + 1) []
  let init : ParseState :=
    { result := { symbols := [nsSym], edges := [], references := [],
                  imports := [] },
      currentClass := none, currentFunction := none }
  (tsMatches.foldl (stepMatch repo path nsUri) init).result

/-! ## Shared helper lemmas -/

theorem insSorted_perm (le : α → α → Bool) (x : α) (l : List α) :
    (insSorted le x l).Perm (x :: l) := by
  induction l with
  | nil => exact List.Perm.refl _
  | cons y ys ih =>
    by_cases h : (le x y && ! le y x) = true
    · simp [insSorted, h]
    · have h1 : insSorted le x (y :: ys) = y :: insSorted le x ys := by
        simp [insSorted, h]
      rw [h1]
      exact (ih.cons y).trans (List.Perm.swap x y ys)

theorem foldl_insSorted_perm (le : α → α → Bool) :
    ∀ (l acc : List α),
      (l.foldl (fun a x => insSorted le x a) acc).Perm (acc ++ l) := by
  intro l
  induction l with
  | nil => intro acc; simp
  | cons x xs ih =>
    intro acc
    have h1 : (x :: xs).foldl (fun a x => insSorted le x a) acc
        = xs.foldl (fun a x => insSorted le x a) (insSorted le x acc) := rfl
    rw [h1]
    refine (ih _).trans ?_
    refine ((insSorted_perm le x acc).append_right xs).trans ?_
    exact List.Perm.symm (by simp)

theorem sortBy_perm (le : α → α → Bool) (l : List α) :
    (sortBy le l).Perm l := by
  simpa using foldl_insSorted_perm le l []

theorem insSorted_pairwise (le : α → α → Bool)
    (htot : ∀ a b, le a b || le b a)
    (htrans : ∀ a b c, le a b = true → le b c = true → le a c = true)
    (x : α) (l : List α) (hl : l.Pairwise (fun a b => le a b = true)) :
    (insSorted le x l).Pairwise (fun a b => le a b = true) := by
  induction l with
  | nil => simp [insSorted]
  | cons y ys ih =>
    rcases List.pairwise_cons.mp hl with ⟨hy, hys⟩
    by_cases h : (le x y && ! le y x) = true
    · have hxy : le x y = true := by
        have := h; simp only [Bool.and_eq_true] at this; exact this.1
      have h1 : insSorted le x (y :: ys) = x :: y :: ys := by
        simp [insSorted, h]
      rw [h1]
      refine List.pairwise_cons.mpr ⟨?_, hl⟩
      intro z hz
      rcases List.mem_cons.mp hz with hz | hz
      · subst hz; exact hxy
      · exact htrans x y z hxy (hy z hz)
    · have hyx : le y x = true := by
        have h2 := htot x y
        simp only [Bool.or_eq_true] at h2
        rcases h2 with hxy | hyx
        · by_cases hyx2 : le y x = true
          · exact hyx2
          · exact absurd (by simp [hxy, hyx2]) h
        · exact hyx
      have h1 : insSorted le x (y :: ys) = y :: insSorted le x ys := by
        simp [insSorted, h]
      rw [h1]
      refine List.pairwise_cons.mpr ⟨?_, ih hys⟩
      intro z hz
      have hz2 := (insSorted_perm le x ys).mem_iff.mp hz
      rcases List.mem_cons.mp hz2 with hz3 | hz3
      · subst hz3; exact hyx
      · exact hy z hz3

theorem foldl_insSorted_pairwise (le : α → α → Bool)
    (htot : ∀ a b, le a b || le b a)
    (htrans : ∀ a b c, le a b = true → le b c = true → le a c = true) :
    ∀ (l acc : List α), acc.Pairwise (fun a b => le a b = true) →
      (l.foldl (fun a x => insSorted le x a) acc).Pairwise
        (fun a b => le a b = true) := by
  intro l
  induction l with
  | nil => intro acc h; simpa using h
  | cons x xs ih =>
    intro acc h
    exact ih _ (insSorted_pairwise le htot htrans x acc h)

theorem sortBy_pairwise (le : α → α → Bool)
    (htot : ∀ a b, le a b || le b a)
    (htrans : ∀ a b c, le a b = true → le b c = true → le a c = true)
    (l : List α) :
    (sortBy le l).Pairwise (fun a b => le a b = true) :=
  foldl_insSorted_pairwise le htot htrans l [] (by simp)

theorem sortBy_length (le : α → α → Bool) (l : List α) :
    (sortBy le l).length = l.length :=
  (sortBy_perm le l).length_eq

theorem sortBy_mem (le : α → α → Bool) (l : List α) (x : α) :
    x ∈ sortBy le l ↔ x ∈ l :=
  (sortBy_perm le l).mem_iff

theorem sameTriple_refl (r : EdgeRow) : sameTriple r r = true := by
  simp [sameTriple]

/-- A store with every table empty. -/
def emptyStore : Store :=
  { symbols := [], edges := [], embeddings := [], callsiteEmbeddings := [],
    unresolved := [], imports := [], ambiguous := [], fileHash := [] }

theorem insertEdge_filter_triple (st : Store) (e : Edge) :
    (insertEdge st e).edges.filter (fun r => sameTriple r (edgeRowOf e)) =
      [edgeRowOf e] := by
  simp only [insertEdge, List.filter_append]
  have h1 : (st.edges.filter (fun x => ! sameTriple x (edgeRowOf e))).filter
      (fun r => sameTriple r (edgeRowOf e)) = [] := by
    rw [List.filter_filter]
    apply List.filter_eq_nil_iff.mpr
    intro a _
    by_cases hc : sameTriple a (edgeRowOf e) = true <;> simp [hc]
  rw [h1]
  simp [sameTriple_refl]

/-! ## C9 — Edge reverse semantics -/

/-- C9 (counterexample): the claim says exactly five of the six edge kinds
    are self-inverse; in the code, `EdgeKind::reverse` maps every kind to
    itself, so all six are — the count is 6, not 5. -/
theorem edgeKind_reverse_counterexample :
    (EdgeKind.all.filter (fun k => decide (k.reverse = k))).length = 6 ∧
    ¬ (EdgeKind.all.filter (fun k => decide (k.reverse = k))).length = 5 := by
  decide

/-- C9 (amended): all six edge kinds satisfy `reverse k = k`, and the
    reversed edge swaps `from` and `to` while keeping the kind and the
    confidence. -/
theorem edge_reverse_semantics :
    (∀ k : EdgeKind, k.reverse = k) ∧
    (∀ e : Edge, e.reversed.fromUri = e.toUri ∧ e.reversed.toUri = e.fromUri ∧
      e.reversed.kind = e.kind ∧ e.reversed.confidence = e.confidence) :=
  ⟨fun k => by cases k <;> rfl, fun _ => ⟨rfl, rfl, rfl, rfl⟩⟩

/-! ## C6 — get_all_unresolved -/

/-- An unresolved row already marked external, for the C6 counterexample. -/
def c6Row : UnresolvedRow :=
  { id := 1, fromUri := "codescope://r/a.py#callable:f@1".toList,
    name := "g".toList, receiver := none, scopeId := 0,
    filePath := "a.py".toList, line := 3, refKind := "call".toList,
    isExternal := true }

/-- A store holding only that external row. -/
def c6Store : Store :=
  { emptyStore with unresolved := [c6Row] }

/-- C6 (counterexample): the claim says no row with `is_external = true`
    appears in the result of `get_all_unresolved`; the SQL has no `WHERE`
    clause, and on this store the external row is returned. -/
theorem getAllUnresolved_counterexample :
    c6Row ∈ getAllUnresolved c6Store ∧ c6Row.isExternal = true := by
  exact ⟨by simp [getAllUnresolved, c6Store], rfl⟩

/-- C6 (amended): `get_all_unresolved` returns every unresolved-reference
    row, including those with `is_external = true`; the `is_external = false`
    filter lives in `count_unresolved` (and in the semantic linker, which
    filters the returned rows itself). -/
theorem getAllUnresolved_no_filter (st : Store) :
    getAllUnresolved st = st.unresolved ∧
    (∀ r ∈ st.unresolved, r ∈ getAllUnresolved st) ∧
    countUnresolved st =
      ((getAllUnresolved st).filter (fun r => ! r.isExternal)).length :=
  ⟨rfl, fun _ hr => hr, rfl⟩

/-! ## C1 — insert_edge and edge monotonicity -/

/-- Concrete URIs for the C1 scenario. -/
def c1UriA : SymbolUri :=
  { repo := "repo".toList, path := "src/main.py".toList, kind := .Callable,
    name := "caller".toList, line := 10 }

def c1UriB : SymbolUri :=
  { repo := "repo".toList, path := "src/main.py".toList, kind := .Callable,
    name := "callee".toList, line := 20 }

/-- C1 (counterexample): the claim says the max-confidence edge survives, so
    inserting confidence 1 then 0.7 should leave 1.  `insert_edge` is a plain
    `INSERT OR REPLACE`: the store ends with exactly one row for the triple
    and its confidence is 0.7, not `max 1 0.7`. -/
theorem insertEdge_counterexample_max :
    (insertEdge (insertEdge emptyStore
        (Edge.withConfidence c1UriA c1UriB .Calls 1))
        (Edge.withConfidence c1UriA c1UriB .Calls (7/10))).edges =
      [edgeRowOf (Edge.withConfidence c1UriA c1UriB .Calls (7/10))] ∧
    (edgeRowOf (Edge.withConfidence c1UriA c1UriB .Calls (7/10))).confidence
      = 7/10 ∧
    ((7 : ℚ)/10 ≠ max 1 (7/10)) := by
  refine ⟨?_, ?_, ?_⟩
  · have hst : sameTriple
        (edgeRowOf (Edge.withConfidence c1UriA c1UriB .Calls 1))
        (edgeRowOf (Edge.withConfidence c1UriA c1UriB .Calls (7/10))) =
        true := by decide
    simp [insertEdge, emptyStore, hst]
  · show clamp01 (7/10) = 7/10
    norm_num [clamp01]
  · norm_num

/-- C1 (amended): inserting two edges with the same `(from, to, kind)` triple
    leaves exactly one stored row for that triple, and its confidence is that
    of the edge inserted last (last-writer-wins), not the maximum: 0.7 then
    1.0 leaves 1.0, but 1.0 then 0.7 leaves 0.7. -/
theorem insertEdge_upsert_last_wins (st : Store) (e e2 : Edge)
    (h : sameTriple (edgeRowOf e) (edgeRowOf e2) = true) :
    (insertEdge (insertEdge st e) e2).edges.filter
        (fun r => sameTriple r (edgeRowOf e)) = [edgeRowOf e2] ∧
    (edgeRowOf e2).confidence = e2.confidence := by
  have hfun : (fun r => sameTriple r (edgeRowOf e)) =
      (fun r => sameTriple r (edgeRowOf e2)) := by
    funext r
    simp only [sameTriple, Bool.and_eq_true, decide_eq_true_eq] at h ⊢
    rw [h.1.1, h.1.2, h.2]
  rw [hfun]
  exact ⟨insertEdge_filter_triple _ e2, rfl⟩

/-- C1 (witness): the amended theorem applied to the concrete 1.0-then-0.7
    scenario on the empty store. -/
theorem insertEdge_upsert_last_wins_witness :
    (insertEdge (insertEdge emptyStore
        (Edge.withConfidence c1UriA c1UriB .Calls 1))
        (Edge.withConfidence c1UriA c1UriB .Calls (7/10))).edges.filter
        (fun r => sameTriple r
          (edgeRowOf (Edge.withConfidence c1UriA c1UriB .Calls 1))) =
      [edgeRowOf (Edge.withConfidence c1UriA c1UriB .Calls (7/10))] ∧
    (edgeRowOf (Edge.withConfidence c1UriA c1UriB .Calls (7/10))).confidence
      = (Edge.withConfidence c1UriA c1UriB .Calls (7/10)).confidence :=
  insertEdge_upsert_last_wins emptyStore
    (Edge.withConfidence c1UriA c1UriB .Calls 1)
    (Edge.withConfidence c1UriA c1UriB .Calls (7/10)) (by decide)

/-! ## C8 — the adapter's per-file namespace symbol -/

/-- Between two parse states, the symbol list has only grown, and only by
    non-namespace symbols. -/
def SymbolsExtended (a b : ParseState) : Prop :=
  ∃ extra, b.result.symbols = a.result.symbols ++ extra ∧
    ∀ s ∈ extra, s.kind ≠ SymbolKind.Namespace

theorem SymbolsExtended.refl (a : ParseState) : SymbolsExtended a a :=
  ⟨[], by simp, by simp⟩

theorem SymbolsExtended.trans {a b c : ParseState}
    (h1 : SymbolsExtended a b) (h2 : SymbolsExtended b c) :
    SymbolsExtended a c := by
  obtain ⟨e1, he1, hk1⟩ := h1
  obtain ⟨e2, he2, hk2⟩ := h2
  refine ⟨e1 ++ e2, by simp [he2, he1], ?_⟩
  intro s hs
  rcases List.mem_append.mp hs with hs | hs
  · exact hk1 s hs
  · exact hk2 s hs

theorem stepCallable_extends (repo path : Str) (nsUri : SymbolUri)
    (st : ParseState) (m : TSMatch) :
    SymbolsExtended st (stepCallable repo path nsUri st m) := by
  cases h : m.callableName with
  | none => simp only [stepCallable, h]; exact SymbolsExtended.refl st
  | some nameNode =>
    simp only [stepCallable, h]
    exact ⟨[_], rfl, by simp [mkSymbol]⟩

theorem stepMethod_extends (repo path : Str) (st : ParseState) (m : TSMatch) :
    SymbolsExtended st (stepMethod repo path st m) := by
  cases h : m.methodName with
  | none => simp only [stepMethod, h]; exact SymbolsExtended.refl st
  | some nameNode =>
    simp only [stepMethod, h]
    exact ⟨[_], rfl, by simp [mkSymbol]⟩

theorem stepContainer_extends (repo path : Str) (nsUri : SymbolUri)
    (st : ParseState) (m : TSMatch) :
    SymbolsExtended st (stepContainer repo path nsUri st m) := by
  cases h : m.containerName with
  | none => simp only [stepContainer, h]; exact SymbolsExtended.refl st
  | some nameNode =>
    simp only [stepContainer, h]
    exact ⟨[_], rfl, by simp [mkSymbol]⟩

theorem stepCall_extends (st : ParseState) (m : TSMatch) :
    SymbolsExtended st (stepCall st m) := by
  cases h : m.callName with
  | none => simp only [stepCall, h]; exact SymbolsExtended.refl st
  | some callNode =>
    cases hf : st.currentFunction with
    | none => simp only [stepCall, h, hf]; exact SymbolsExtended.refl st
    | some f =>
      simp only [stepCall, h, hf]
      exact ⟨[], by simp, by simp⟩

theorem stepInherits_extends (st : ParseState) (m : TSMatch) :
    SymbolsExtended st (stepInherits st m) := by
  cases h : m.inheritsBase with
  | none => simp only [stepInherits, h]; exact SymbolsExtended.refl st
  | some baseNode =>
    cases hc : st.currentClass with
    | none => simp only [stepInherits, h, hc]; exact SymbolsExtended.refl st
    | some c =>
      simp only [stepInherits, h, hc]
      exact ⟨[], by simp, by simp⟩

theorem stepImportModule_extends (st : ParseState) (m : TSMatch) :
    SymbolsExtended st (stepImportModule st m) := by
  cases h : m.importModule with
  | none => simp only [stepImportModule, h]; exact SymbolsExtended.refl st
  | some moduleNode =>
    simp only [stepImportModule, h]
    exact ⟨[], by simp, by simp⟩

theorem stepImportFrom_extends (st : ParseState) (m : TSMatch) :
    SymbolsExtended st (stepImportFrom st m) := by
  cases h : m.importFromModule with
  | none => simp only [stepImportFrom, h]; exact SymbolsExtended.refl st
  | some moduleNode =>
    simp only [stepImportFrom, h]
    exact ⟨[], by simp, by simp⟩

theorem stepMatch_extends (repo path : Str) (nsUri : SymbolUri)
    (st : ParseState) (m : TSMatch) :
    SymbolsExtended st (stepMatch repo path nsUri st m) :=
  ((((((stepCallable_extends repo path nsUri st m).trans
    (stepMethod_extends repo path _ m)).trans
    (stepContainer_extends repo path nsUri _ m)).trans
    (stepCall_extends _ m)).trans
    (stepInherits_extends _ m)).trans
    (stepImportModule_extends _ m)).trans
    (stepImportFrom_extends _ m)

theorem foldl_stepMatch_extends (repo path : Str) (nsUri : SymbolUri) :
    ∀ (ms : List TSMatch) (st : ParseState),
      SymbolsExtended st (ms.foldl (stepMatch repo path nsUri) st) := by
  intro ms
  induction ms with
  | nil => intro st; exact SymbolsExtended.refl st
  | cons m rest ih =>
    intro st
    exact (stepMatch_extends repo path nsUri st m).trans (ih _)

/-- C8 (counterexample): for `main.rs` with no query matches, the claim says
    the namespace symbol's name is the file stem `main`; the code strips only
    a `.py` suffix, so the name stays `main.rs`. -/
theorem parseFile_stem_counterexample :
    (parseFile ("r".toList) ("main.rs".toList) 0 []).symbols =
      [mkSymbol ("r".toList) ("main.rs".toList) .Namespace
        ("main.rs".toList) 1 1 []] ∧
    fileStem ("main.rs".toList) = "main".toList ∧
    stripSuffixPy (basename ("main.rs".toList)) ≠ fileStem ("main.rs".toList)
    := by
  refine ⟨by decide, by decide, by decide⟩

/-- The initial loop state of `parse_file`: just the namespace symbol. -/
def initParseState (repo path : Str) (rootEndRow : Nat) : ParseState where
  result :=
    { symbols := [mkSymbol repo path .Namespace (stripSuffixPy (basename path))
        1 (rootEndRow + 1) []],
      edges := [], references := [], imports := [] }
  currentClass := none
  currentFunction := none

theorem parseFile_eq_foldl (repo path : Str) (rootEndRow : Nat)
    (ms : List TSMatch) :
    parseFile repo path rootEndRow ms =
      (ms.foldl (stepMatch repo path
        { repo := repo, path := path, kind := .Namespace,
          name := stripSuffixPy (basename path), line := 1 })
        (initParseState repo path rootEndRow)).result := rfl

/-- C8 (amended): every parsed file's result contains exactly one `Namespace`
    symbol, it is the first symbol, its name is the basename of the path with
    only a `.py` suffix stripped (other extensions are kept), its start line
    is 1, and its end line is the parse root's end row plus one. -/
theorem parseFile_namespace_symbol (repo path : Str) (rootEndRow : Nat)
    (ms : List TSMatch) :
    (parseFile repo path rootEndRow ms).symbols.countP
        (fun s => decide (s.kind = SymbolKind.Namespace)) = 1 ∧
    (parseFile repo path rootEndRow ms).symbols.head? =
      some (mkSymbol repo path .Namespace (stripSuffixPy (basename path)) 1
        (rootEndRow + 1) []) := by
  have hext := foldl_stepMatch_extends repo path
    { repo := repo, path := path, kind := .Namespace,
      name := stripSuffixPy (basename path), line := 1 } ms
    (initParseState repo path rootEndRow)
  obtain ⟨extra, he, hk⟩ := hext
  have hres : (parseFile repo path rootEndRow ms).symbols =
      mkSymbol repo path .Namespace (stripSuffixPy (basename path)) 1
        (rootEndRow + 1) [] :: extra := by
    rw [parseFile_eq_foldl, he]
    simp [initParseState]
  rw [hres]
  constructor
  · rw [List.countP_cons]
    have h0 : extra.countP (fun s => decide (s.kind = SymbolKind.Namespace))
        = 0 := by
      apply List.countP_eq_zero.mpr
      intro s hs
      simpa using hk s hs
    simp [h0, mkSymbol]
  · rfl

/-! ## C4 — Step 3 of the global linker and receiver filtering -/

/-- A container `T` in `t.py`. -/
def c4RowT : SymbolRow :=
  { uri := "codescope://r/t.py#container:T@1".toList, kind := .Container,
    name := "T".toList, path := "t.py".toList, lineStart := 1, lineEnd := 10,
    doc := none, signature := none, content := [] }

/-- A callable `m` inside `T` in `t.py`. -/
def c4RowM1 : SymbolRow :=
  { uri := "codescope://r/t.py#callable:m@5".toList, kind := .Callable,
    name := "m".toList, path := "t.py".toList, lineStart := 5, lineEnd := 7,
    doc := none, signature := none, content := [] }

/-- An unrelated callable `m` in `u.py`, contained in nothing. -/
def c4RowM2 : SymbolRow :=
  { uri := "codescope://r/u.py#callable:m@3".toList, kind := .Callable,
    name := "m".toList, path := "u.py".toList, lineStart := 3, lineEnd := 4,
    doc := none, signature := none, content := [] }

def c4UriM1 : SymbolUri :=
  { repo := "r".toList, path := "t.py".toList, kind := .Callable,
    name := "m".toList, line := 5 }

def c4UriM2 : SymbolUri :=
  { repo := "r".toList, path := "u.py".toList, kind := .Callable,
    name := "m".toList, line := 3 }

/-- The `contains` edge from `T` to its method `m`. -/
def c4ContainsRow : EdgeRow :=
  { fromUri := "codescope://r/t.py#container:T@1".toList,
    toUri := "codescope://r/t.py#callable:m@5".toList, kind := .Contains,
    confidence := 1 }

/-- A reference to `m` with receiver `T`, from a third file with no local
    matches and no imports, so it reaches Step 3. -/
def c4Ref : UnresolvedRow :=
  { id := 1, fromUri := "codescope://r/main.py#callable:f@1".toList,
    name := "m".toList, receiver := some ("T".toList), scopeId := 0,
    filePath := "main.py".toList, line := 4, refKind := "call".toList,
    isExternal := false }

def c4Store : Store :=
  { emptyStore with
      symbols := [c4RowT, c4RowM1, c4RowM2]
      edges := [c4ContainsRow] }

/-- C4 (counterexample): on this store the claim's receiver-filtered
    candidate set is exactly the method of `T`, so the claim says the
    reference is bound to it; the code never consults the receiver in
    Step 3, finds two name matches, and records an ambiguity instead. -/
theorem glStep3_receiver_counterexample :
    (specStep3Candidates c4Store c4Ref ("T".toList)).map (fun s => s.uri) =
      [c4UriM1] ∧
    c4Ref.receiver = some ("T".toList) ∧
    resolveDecision c4Store c4Ref = .ambiguous [c4UriM1, c4UriM2] := by
  refine ⟨by decide, by decide, by decide⟩

theorem candInsert_ne_nil (l : List SymbolUri) (x : SymbolUri) :
    candInsert l x ≠ [] := by
  cases l with
  | nil => simp [candInsert]
  | cons y ys =>
    unfold candInsert
    split <;> simp

theorem foldl_candInsert_ne_nil :
    ∀ (gs : List Symbol) (l : List SymbolUri), l ≠ [] →
      gs.foldl (fun a s => candInsert a s.uri) l ≠ [] := by
  intro gs
  induction gs with
  | nil => intro l h; exact h
  | cons g rest ih =>
    intro l _
    exact ih (candInsert l g.uri) (candInsert_ne_nil l g.uri)

/-- C4 (amended): when a reference reaches Step 3 (Steps 1–2 yielded neither
    a match nor candidates), the candidate set is all symbols whose name
    equals the referenced name — the receiver is ignored — and the reference
    is bound exactly when that set is a singleton (and its `from_uri`
    parses); two or more matches all become ambiguous candidates. -/
theorem glStep3_no_receiver_filter (st : Store) (r : UnresolvedRow)
    (h : glStep2 st r (glStep1 st r) = { matched := none, candidates := [] }) :
    resolveDecision st r =
      match findSymbolsByName st r.name with
      | [] => Outcome.external
      | [s] =>
        (match SymbolUri.parse r.fromUri with
         | some _ => Outcome.bound s.uri
         | none => Outcome.boundFailedParse)
      | gs => Outcome.ambiguous (gs.foldl (fun a s => candInsert a s.uri) [])
    := by
  unfold resolveDecision
  rw [h]
  cases hg : findSymbolsByName st r.name with
  | nil => simp [glStep3, hg]
  | cons s rest =>
    cases rest with
    | nil => simp [glStep3, hg]
    | cons s2 rest2 =>
      simp only [glStep3, hg]
      simp only [and_self, if_true, reduceIte]
      split
      · rename_i hc
        exact absurd hc (foldl_candInsert_ne_nil rest2 _
          (candInsert_ne_nil (candInsert [] s.uri) s2.uri))
      · rfl

/-- C4 (witness): a store where `m` has exactly one global match; Steps 1–2
    produce nothing and the amended theorem applies. -/
def c4WStore : Store :=
  { emptyStore with symbols := [c4RowM1] }

theorem glStep3_no_receiver_filter_witness :
    resolveDecision c4WStore c4Ref =
      match findSymbolsByName c4WStore c4Ref.name with
      | [] => Outcome.external
      | [s] =>
        (match SymbolUri.parse c4Ref.fromUri with
         | some _ => Outcome.bound s.uri
         | none => Outcome.boundFailedParse)
      | gs => Outcome.ambiguous (gs.foldl (fun a s => candInsert a s.uri) [])
    :=
  glStep3_no_receiver_filter c4WStore c4Ref (by decide)

/-! ## C10 — search_content on a tokenless query -/

/-- A symbol row whose stored URI text is canonical: it parses, it re-prints
    to itself, and its path component agrees with the row's `path` column.
    Every row written by `insert_symbol` from a `Symbol::new` value has this
    shape. -/
def canonicalSymRow (r : SymbolRow) : Bool :=
  match SymbolUri.parse r.uri with
  | some u => decide (u.toUriString = r.uri) && decide (u.path = r.path)
  | none => false

/-- The symbol a canonical row reads back as. -/
def rowSymbol (r : SymbolRow) : Symbol :=
  { uri := (SymbolUri.parse r.uri).getD
      { repo := [], path := [], kind := .Namespace, name := [], line := 0 },
    kind := r.kind, name := r.name, path := r.path, lineStart := r.lineStart,
    lineEnd := r.lineEnd, doc := r.doc, signature := r.signature,
    content := r.content }

theorem rowToSymbol_of_canonical (r : SymbolRow)
    (h : canonicalSymRow r = true) :
    rowToSymbol r = some (rowSymbol r) ∧ (rowSymbol r).path = r.path ∧
    (rowSymbol r).lineStart = r.lineStart ∧
    (rowSymbol r).uri.toUriString = r.uri := by
  unfold canonicalSymRow at h
  cases hp : SymbolUri.parse r.uri with
  | none => rw [hp] at h; exact absurd h (by simp)
  | some u =>
    rw [hp] at h
    simp only [Bool.and_eq_true, decide_eq_true_eq] at h
    refine ⟨?_, rfl, rfl, ?_⟩
    · simp [rowToSymbol, rowSymbol, hp]
    · simp [rowSymbol, hp, h.1]

theorem filterMap_eq_map_of_all_some {α β : Type} {f : α → Option β}
    {g : α → β} :
    ∀ {l : List α}, (∀ a ∈ l, f a = some (g a)) → l.filterMap f = l.map g := by
  intro l
  induction l with
  | nil => intro _; rfl
  | cons x xs ih =>
    intro h
    rw [List.filterMap_cons, h x (by simp), List.map_cons,
      ih (fun a ha => h a (by simp [ha]))]

/-! Bytewise order facts for `ORDER BY path`. -/

theorem char_toNat_inj {a b : Char} (h : a.toNat = b.toNat) : a = b := by
  cases a; cases b
  simp only [Char.toNat] at h
  congr 1
  exact UInt32.ext h

theorem strLt_total_or_eq : ∀ a b : Str,
    strLt a b = true ∨ strLt b a = true ∨ a = b := by
  intro a
  induction a with
  | nil =>
    intro b
    cases b with
    | nil => right; right; rfl
    | cons c cs => left; rfl
  | cons x xs ih =>
    intro b
    cases b with
    | nil => right; left; rfl
    | cons y ys =>
      by_cases h1 : x.toNat < y.toNat
      · left; simp [strLt, h1]
      · by_cases h2 : x.toNat = y.toNat
        · have hxy : x = y := char_toNat_inj h2
          subst hxy
          rcases ih ys with h | h | h
          · left; simp [strLt, h]
          · right; left; simp [strLt, h]
          · right; right; rw [h]
        · right; left
          have h3 : y.toNat < x.toNat := by omega
          simp [strLt, h3]

theorem strLt_trans : ∀ a b c : Str,
    strLt a b = true → strLt b c = true → strLt a c = true := by
  intro a
  induction a with
  | nil =>
    intro b c hab hbc
    cases c with
    | nil =>
      cases b with
      | nil => exact hab
      | cons y ys => simp [strLt] at hbc
    | cons z zs => rfl
  | cons x xs ih =>
    intro b c hab hbc
    cases b with
    | nil => simp [strLt] at hab
    | cons y ys =>
      cases c with
      | nil => simp [strLt] at hbc
      | cons z zs =>
        simp only [strLt] at hab hbc ⊢
        by_cases hxy : x.toNat < y.toNat
        · by_cases hyz : y.toNat < z.toNat
          · simp [show x.toNat < z.toNat by omega]
          · simp only [hyz, if_false, if_neg] at hbc
            by_cases hyz2 : y.toNat = z.toNat
            · simp [show x.toNat < z.toNat by omega]
            · simp [hyz, hyz2] at hbc
        · simp only [hxy, if_false, if_neg] at hab
          by_cases hxy2 : x.toNat = y.toNat
          · simp only [hxy2, if_true, reduceIte] at hab
            by_cases hyz : y.toNat < z.toNat
            · simp [show x.toNat < z.toNat by omega]
            · simp only [hyz, if_false, if_neg] at hbc
              by_cases hyz2 : y.toNat = z.toNat
              · simp only [hyz2, if_true, reduceIte] at hbc
                have : ¬ x.toNat < z.toNat := by omega
                simp [this, show x.toNat = z.toNat by omega]
                exact ih ys zs hab hbc
              · simp [hyz, hyz2] at hbc
          · simp [hxy, hxy2] at hab

theorem pathLineLe_total (a b : SymbolRow) :
    (pathLineLe a b || pathLineLe b a) = true := by
  unfold pathLineLe
  rcases strLt_total_or_eq a.path b.path with h | h | h
  · simp [h]
  · simp [h]
  · rcases Nat.le_total a.lineStart b.lineStart with h2 | h2 <;>
      simp [h, h2]

theorem pathLineLe_trans (a b c : SymbolRow) :
    pathLineLe a b = true → pathLineLe b c = true →
      pathLineLe a c = true := by
  unfold pathLineLe
  intro hab hbc
  simp only [Bool.or_eq_true, Bool.and_eq_true, decide_eq_true_eq]
    at hab hbc ⊢
  rcases hab with hab | ⟨hab, hab2⟩
  · rcases hbc with hbc | ⟨hbc, _⟩
    · exact Or.inl (strLt_trans _ _ _ hab hbc)
    · exact Or.inl (hbc ▸ hab)
  · rcases hbc with hbc | ⟨hbc, hbc2⟩
    · exact Or.inl (hab ▸ hbc)
    · exact Or.inr ⟨hab.trans hbc, hab2.trans hbc2⟩

/-- C10: on a query with no non-whitespace token, `search_content` falls
    back to `get_recent_symbols`: up to `limit` symbols, all stored rows
    eligible with no content or kind filtering, ordered by path then start
    line; on a non-empty store with a positive limit the result is
    non-empty. -/
theorem searchContent_empty_query (st : Store) (query : Str)
    (kind : Option SymbolKind) (limit : Nat)
    (hq : splitWs query = [])
    (hcanon : st.symbols.all canonicalSymRow = true) :
    searchContent st query kind limit = getRecentSymbols st limit ∧
    (searchContent st query kind limit).length = min limit st.symbols.length ∧
    (st.symbols ≠ [] → 1 ≤ limit → searchContent st query kind limit ≠ []) ∧
    List.Pairwise
      (fun a b => (strLt a.path b.path ||
        (decide (a.path = b.path) && decide (a.lineStart ≤ b.lineStart)))
        = true)
      (searchContent st query kind limit) := by
  have hbranch : searchContent st query kind limit =
      getRecentSymbols st limit := by
    simp [searchContent, hq]
  have hall : ∀ r ∈ (sortBy pathLineLe st.symbols).take limit,
      rowToSymbol r = some (rowSymbol r) := by
    intro r hr
    have hr2 : r ∈ st.symbols := by
      have := List.mem_of_mem_take hr
      exact (sortBy_mem pathLineLe st.symbols r).mp this
    have hc : canonicalSymRow r = true := by
      have := List.all_eq_true.mp hcanon r hr2
      simpa using this
    exact (rowToSymbol_of_canonical r hc).1
  have hmap : getRecentSymbols st limit =
      ((sortBy pathLineLe st.symbols).take limit).map rowSymbol := by
    unfold getRecentSymbols
    exact filterMap_eq_map_of_all_some hall
  have hlen : (getRecentSymbols st limit).length =
      min limit st.symbols.length := by
    rw [hmap, List.length_map, List.length_take, sortBy_length]
  refine ⟨hbranch, by rw [hbranch, hlen], ?_, ?_⟩
  · intro hne hlim
    rw [hbranch]
    intro hnil
    have := hlen
    rw [hnil] at this
    simp only [List.length_nil] at this
    have hlen2 : 1 ≤ st.symbols.length := by
      cases hsym : st.symbols with
      | nil => exact absurd hsym hne
      | cons a l => simp [hsym]
    omega
  · rw [hbranch, hmap]
    have hrows : List.Pairwise (fun a b => pathLineLe a b = true)
        ((sortBy pathLineLe st.symbols).take limit) :=
      (sortBy_pairwise pathLineLe pathLineLe_total pathLineLe_trans
        st.symbols).sublist (List.take_sublist limit _)
    rw [List.pairwise_map]
    refine hrows.imp ?_
    intro a b hab
    simpa [rowSymbol, pathLineLe] using hab

/-- Rows for the C10 witness store. -/
def c10RowA : SymbolRow :=
  { uri := "codescope://r/a.py#callable:f@2".toList, kind := .Callable,
    name := "f".toList, path := "a.py".toList, lineStart := 2, lineEnd := 3,
    doc := none, signature := none, content := "def f(): pass".toList }

def c10RowB : SymbolRow :=
  { uri := "codescope://r/b.py#callable:g@1".toList, kind := .Callable,
    name := "g".toList, path := "b.py".toList, lineStart := 1, lineEnd := 2,
    doc := none, signature := none, content := "def g(): pass".toList }

def c10Store : Store :=
  { emptyStore with symbols := [c10RowB, c10RowA] }

/-- C10 (witness): the theorem applied to a two-row store and the
    all-whitespace query. -/
theorem searchContent_empty_query_witness :
    searchContent c10Store ("  ".toList) none 10 =
      getRecentSymbols c10Store 10 ∧
    (searchContent c10Store ("  ".toList) none 10).length =
      min 10 c10Store.symbols.length ∧
    (c10Store.symbols ≠ [] → 1 ≤ 10 →
      searchContent c10Store ("  ".toList) none 10 ≠ []) ∧
    List.Pairwise
      (fun a b => (strLt a.path b.path ||
        (decide (a.path = b.path) && decide (a.lineStart ≤ b.lineStart)))
        = true)
      (searchContent c10Store ("  ".toList) none 10) :=
  searchContent_empty_query c10Store ("  ".toList) none 10 (by decide)
    (by decide)

/-! ## C3 — referential integrity of delete_file_data -/

/-- Referential-integrity precondition for one stored URI text: if it parses
    to a URI whose path is `p`, a symbol row with exactly that text exists.
    This is the spec's own cross-entity invariant (§3), restricted to the
    file being deleted. -/
def endpointOk (st : Store) (p : Str) (x : Str) : Bool :=
  match SymbolUri.parse x with
  | some u =>
    if u.path = p then st.symbols.any (fun r => decide (r.uri = x)) else true
  | none => true

/-- Every edge endpoint satisfies `endpointOk`. -/
def edgeRefsOk (st : Store) (p : Str) : Bool :=
  st.edges.all fun er => endpointOk st p er.fromUri && endpointOk st p er.toUri

/-- Every embedding row satisfies `endpointOk`. -/
def embedRefsOk (st : Store) (p : Str) : Bool :=
  st.embeddings.all fun em => endpointOk st p em.uri

theorem foldl_delSymStep_edges :
    ∀ (syms : List Symbol) (st : Store) (er : EdgeRow),
      er ∈ (syms.foldl delSymStep st).edges ↔
        er ∈ st.edges ∧ ∀ s ∈ syms,
          er.fromUri ≠ s.uri.toUriString ∧ er.toUri ≠ s.uri.toUriString := by
  intro syms
  induction syms with
  | nil => intro st er; simp
  | cons s rest ih =>
    intro st er
    have hstep : er ∈ (delSymStep st s).edges ↔
        er ∈ st.edges ∧ er.fromUri ≠ s.uri.toUriString ∧
          er.toUri ≠ s.uri.toUriString := by
      simp only [delSymStep, List.mem_filter, Bool.not_eq_true',
        decide_eq_false_iff_not]
      constructor
      · rintro ⟨⟨h1, h2⟩, h3⟩; exact ⟨h1, h2, h3⟩
      · rintro ⟨h1, h2, h3⟩; exact ⟨⟨h1, h2⟩, h3⟩
    rw [List.foldl_cons, ih, hstep]
    constructor
    · rintro ⟨⟨h1, h2, h3⟩, h4⟩
      refine ⟨h1, ?_⟩
      intro t ht
      rcases List.mem_cons.mp ht with h | h
      · subst h; exact ⟨h2, h3⟩
      · exact h4 t h
    · rintro ⟨h1, h4⟩
      exact ⟨⟨h1, (h4 s (by simp)).1, (h4 s (by simp)).2⟩,
        fun t ht => h4 t (by simp [ht])⟩

theorem foldl_delSymStep_embeddings :
    ∀ (syms : List Symbol) (st : Store) (em : EmbeddingRow),
      em ∈ (syms.foldl delSymStep st).embeddings ↔
        em ∈ st.embeddings ∧ ∀ s ∈ syms, em.uri ≠ s.uri.toUriString := by
  intro syms
  induction syms with
  | nil => intro st em; simp
  | cons s rest ih =>
    intro st em
    have hstep : em ∈ (delSymStep st s).embeddings ↔
        em ∈ st.embeddings ∧ em.uri ≠ s.uri.toUriString := by
      simp [delSymStep, List.mem_filter]
    rw [List.foldl_cons, ih, hstep]
    simp only [List.forall_mem_cons]
    tauto

theorem foldl_delSymStep_rest :
    ∀ (syms : List Symbol) (st : Store),
      (syms.foldl delSymStep st).symbols = st.symbols ∧
      (syms.foldl delSymStep st).unresolved = st.unresolved ∧
      (syms.foldl delSymStep st).imports = st.imports ∧
      (syms.foldl delSymStep st).ambiguous = st.ambiguous ∧
      (syms.foldl delSymStep st).callsiteEmbeddings =
        st.callsiteEmbeddings ∧
      (syms.foldl delSymStep st).fileHash = st.fileHash := by
  intro syms
  induction syms with
  | nil => intro st; exact ⟨rfl, rfl, rfl, rfl, rfl, rfl⟩
  | cons s rest ih =>
    intro st
    rw [List.foldl_cons]
    exact ih (delSymStep st s)

theorem foldl_delRefStep_ambiguous :
    ∀ (refs : List UnresolvedRow) (st : Store) (a : AmbiguousRow),
      a ∈ (refs.foldl delRefStep st).ambiguous ↔
        a ∈ st.ambiguous ∧ ∀ r ∈ refs, a.referenceId ≠ r.id := by
  intro refs
  induction refs with
  | nil => intro st a; simp
  | cons r rest ih =>
    intro st a
    have hstep : a ∈ (delRefStep st r).ambiguous ↔
        a ∈ st.ambiguous ∧ a.referenceId ≠ r.id := by
      simp [delRefStep, List.mem_filter]
    rw [List.foldl_cons, ih, hstep]
    simp only [List.forall_mem_cons]
    tauto

theorem foldl_delRefStep_callsite :
    ∀ (refs : List UnresolvedRow) (st : Store) (c : Int × List ℚ),
      c ∈ (refs.foldl delRefStep st).callsiteEmbeddings ↔
        c ∈ st.callsiteEmbeddings ∧ ∀ r ∈ refs, c.1 ≠ r.id := by
  intro refs
  induction refs with
  | nil => intro st c; simp
  | cons r rest ih =>
    intro st c
    have hstep : c ∈ (delRefStep st r).callsiteEmbeddings ↔
        c ∈ st.callsiteEmbeddings ∧ c.1 ≠ r.id := by
      simp [delRefStep, List.mem_filter]
    rw [List.foldl_cons, ih, hstep]
    simp only [List.forall_mem_cons]
    tauto

theorem foldl_delRefStep_rest :
    ∀ (refs : List UnresolvedRow) (st : Store),
      (refs.foldl delRefStep st).edges = st.edges ∧
      (refs.foldl delRefStep st).embeddings = st.embeddings ∧
      (refs.foldl delRefStep st).symbols = st.symbols ∧
      (refs.foldl delRefStep st).unresolved = st.unresolved ∧
      (refs.foldl delRefStep st).imports = st.imports ∧
      (refs.foldl delRefStep st).fileHash = st.fileHash := by
  intro refs
  induction refs with
  | nil => intro st; exact ⟨rfl, rfl, rfl, rfl, rfl, rfl⟩
  | cons r rest ih =>
    intro st
    rw [List.foldl_cons]
    exact ih (delRefStep st r)

theorem canonicalSymRow_spec (r : SymbolRow) (h : canonicalSymRow r = true) :
    ∃ u, SymbolUri.parse r.uri = some u ∧ u.toUriString = r.uri ∧
      u.path = r.path := by
  unfold canonicalSymRow at h
  cases hp : SymbolUri.parse r.uri with
  | none => rw [hp] at h; simp at h
  | some u =>
    rw [hp] at h
    simp only [Bool.and_eq_true, decide_eq_true_eq] at h
    exact ⟨u, rfl, h.1, h.2⟩

/-- A covered endpoint: if a URI text with path component `p` resolves to a
    stored symbol row (and rows are canonical), the per-symbol deletion loop
    sees a symbol whose re-printed URI is exactly that text. -/
theorem endpoint_covered (st : Store) (p : Str) (x : Str)
    (hcanon : st.symbols.all canonicalSymRow = true)
    (hok : endpointOk st p x = true)
    (u : SymbolUri) (hp : SymbolUri.parse x = some u) (hup : u.path = p) :
    ∃ s ∈ findSymbolsInFile st p, s.uri.toUriString = x := by
  unfold endpointOk at hok
  rw [hp] at hok
  have hok2 : (if u.path = p then
      st.symbols.any (fun r => decide (r.uri = x)) else true) = true := hok
  rw [if_pos hup] at hok2
  obtain ⟨r, hr, hrx⟩ := List.any_eq_true.mp hok2
  have hrx2 : r.uri = x := by simpa using hrx
  have hc : canonicalSymRow r = true := by
    have := List.all_eq_true.mp hcanon r hr
    simpa using this
  obtain ⟨u0, hp0, hts0, hpath0⟩ := canonicalSymRow_spec r hc
  have hu0 : u0 = u := by
    rw [hrx2, hp] at hp0
    exact (Option.some_inj.mp hp0).symm
  subst hu0
  have hrpath : r.path = p := by rw [← hpath0, hup]
  obtain ⟨hrow, _, _, huri⟩ := rowToSymbol_of_canonical r hc
  refine ⟨rowSymbol r, ?_, by rw [huri, hrx2]⟩
  unfold findSymbolsInFile
  apply List.mem_filterMap.mpr
  refine ⟨r, ?_, hrow⟩
  apply (sortBy_mem _ _ r).mpr
  exact List.mem_filter.mpr ⟨hr, by simp [hrpath]⟩

/-- Stage views of `delete_file_data`, mirroring its statement order. -/
def delStage1 (st : Store) (p : Str) : Store :=
  (findSymbolsInFile st p).foldl delSymStep st

def delStage2 (st : Store) (p : Str) : Store :=
  { delStage1 st p with
      symbols := (delStage1 st p).symbols.filter
        (fun r => ! decide (r.path = p)) }

def delStage3 (st : Store) (p : Str) : Store :=
  (getUnresolvedInFile (delStage2 st p) p).foldl delRefStep (delStage2 st p)

def delStage4 (st : Store) (p : Str) : Store :=
  { delStage3 st p with
      unresolved := (delStage3 st p).unresolved.filter
        (fun r => ! decide (r.filePath = p)) }

def delStage5 (st : Store) (p : Str) : Store :=
  { delStage4 st p with
      imports := (delStage4 st p).imports.filter
        (fun i => ! decide (i.filePath = p)) }

theorem deleteFileData_eq_stages (st : Store) (p : Str) :
    deleteFileData st p =
      { delStage5 st p with
          fileHash := (delStage5 st p).fileHash.filter
            (fun h => ! decide (h.1 = p)) } := rfl

/-- C3: after `delete_file_data(p)` on a store whose symbol rows are
    canonical and whose edge endpoints and embedding keys with path `p`
    resolve to stored symbols (the spec's cross-entity invariants), no edge
    endpoint and no embedding key has path component `p`, no symbol, no
    unresolved reference, no import and no file-hash row mentions `p`, and
    no ambiguous or call-site-embedding row references any reference that
    was recorded in `p`. -/
theorem deleteFileData_integrity (st : Store) (p : Str)
    (hcanon : st.symbols.all canonicalSymRow = true)
    (hedges : edgeRefsOk st p = true)
    (hembed : embedRefsOk st p = true) :
    (∀ er ∈ (deleteFileData st p).edges,
      (∀ u, SymbolUri.parse er.fromUri = some u → u.path ≠ p) ∧
      (∀ u, SymbolUri.parse er.toUri = some u → u.path ≠ p)) ∧
    (∀ em ∈ (deleteFileData st p).embeddings,
      ∀ u, SymbolUri.parse em.uri = some u → u.path ≠ p) ∧
    (∀ sr ∈ (deleteFileData st p).symbols, sr.path ≠ p) ∧
    (∀ r ∈ (deleteFileData st p).unresolved, r.filePath ≠ p) ∧
    (∀ i ∈ (deleteFileData st p).imports, i.filePath ≠ p) ∧
    (∀ a ∈ (deleteFileData st p).ambiguous,
      ∀ r ∈ st.unresolved, r.filePath = p → a.referenceId ≠ r.id) ∧
    (∀ c ∈ (deleteFileData st p).callsiteEmbeddings,
      ∀ r ∈ st.unresolved, r.filePath = p → c.1 ≠ r.id) ∧
    (∀ hrow ∈ (deleteFileData st p).fileHash, hrow.1 ≠ p) := by
  have hrest1 := foldl_delSymStep_rest (findSymbolsInFile st p) st
  have hrest3 := foldl_delRefStep_rest
    (getUnresolvedInFile (delStage2 st p) p) (delStage2 st p)
  have hun2 : (delStage2 st p).unresolved = st.unresolved := by
    show (delStage1 st p).unresolved = st.unresolved
    exact hrest1.2.1
  rw [deleteFileData_eq_stages]
  refine ⟨?_, ?_, ?_, ?_, ?_, ?_, ?_, ?_⟩
  · -- edges
    intro er her
    have her2 : er ∈ (delStage1 st p).edges := by
      have h3 : er ∈ (delStage3 st p).edges := her
      rw [delStage3] at h3
      rw [hrest3.1] at h3
      exact h3
    rw [delStage1, foldl_delSymStep_edges] at her2
    obtain ⟨hmem, hall⟩ := her2
    have hok := List.all_eq_true.mp hedges er hmem
    simp only [Bool.and_eq_true] at hok
    constructor
    · intro u hu hup
      obtain ⟨s, hs, hsx⟩ :=
        endpoint_covered st p er.fromUri hcanon hok.1 u hu hup
      exact (hall s hs).1 hsx.symm
    · intro u hu hup
      obtain ⟨s, hs, hsx⟩ :=
        endpoint_covered st p er.toUri hcanon hok.2 u hu hup
      exact (hall s hs).2 hsx.symm
  · -- embeddings
    intro em hem u hu hup
    have hem2 : em ∈ (delStage1 st p).embeddings := by
      have h3 : em ∈ (delStage3 st p).embeddings := hem
      rw [delStage3] at h3
      rw [hrest3.2.1] at h3
      exact h3
    rw [delStage1, foldl_delSymStep_embeddings] at hem2
    obtain ⟨hmem, hall⟩ := hem2
    have hok := List.all_eq_true.mp hembed em hmem
    obtain ⟨s, hs, hsx⟩ := endpoint_covered st p em.uri hcanon hok u hu hup
    exact hall s hs hsx.symm
  · -- symbols
    intro sr hsr
    have hsr2 : sr ∈ (delStage2 st p).symbols := by
      have h3 : sr ∈ (delStage3 st p).symbols := hsr
      rw [delStage3] at h3
      rw [hrest3.2.2.1] at h3
      exact h3
    have := List.mem_filter.mp hsr2
    simpa using this.2
  · -- unresolved
    intro r hr
    have := List.mem_filter.mp hr
    simpa using this.2
  · -- imports
    intro i hi
    have := List.mem_filter.mp hi
    simpa using this.2
  · -- ambiguous
    intro a ha r hr hrp
    have ha2 : a ∈ (delStage3 st p).ambiguous := ha
    rw [delStage3, foldl_delRefStep_ambiguous] at ha2
    obtain ⟨_, hall⟩ := ha2
    apply hall r
    unfold getUnresolvedInFile
    apply List.mem_filter.mpr
    exact ⟨by rw [hun2]; exact hr, by simp [hrp]⟩
  · -- callsite embeddings
    intro c hc r hr hrp
    have hc2 : c ∈ (delStage3 st p).callsiteEmbeddings := hc
    rw [delStage3, foldl_delRefStep_callsite] at hc2
    obtain ⟨_, hall⟩ := hc2
    apply hall r
    unfold getUnresolvedInFile
    apply List.mem_filter.mpr
    exact ⟨by rw [hun2]; exact hr, by simp [hrp]⟩
  · -- file hash
    intro hrow hh
    have := List.mem_filter.mp hh
    simpa using this.2

/-- Rows of the C3 witness store: a symbol in `a.py`, a symbol in `b.py`,
    one edge between them, an embedding, an unresolved reference recorded in
    `a.py` with its ambiguous and call-site rows, an import and a file
    hash. -/
def c3RowA : SymbolRow :=
  { uri := "codescope://r/a.py#callable:f@1".toList, kind := .Callable,
    name := "f".toList, path := "a.py".toList, lineStart := 1, lineEnd := 2,
    doc := none, signature := none, content := [] }

def c3RowB : SymbolRow :=
  { uri := "codescope://r/b.py#callable:g@1".toList, kind := .Callable,
    name := "g".toList, path := "b.py".toList, lineStart := 1, lineEnd := 2,
    doc := none, signature := none, content := [] }

def c3EdgeRow : EdgeRow :=
  { fromUri := "codescope://r/a.py#callable:f@1".toList,
    toUri := "codescope://r/b.py#callable:g@1".toList, kind := .Calls,
    confidence := 1 }

def c3EmbRow : EmbeddingRow :=
  { uri := "codescope://r/a.py#callable:f@1".toList, vector := [1] }

def c3UnresRow : UnresolvedRow :=
  { id := 5, fromUri := "codescope://r/a.py#callable:f@1".toList,
    name := "h".toList, receiver := none, scopeId := 0,
    filePath := "a.py".toList, line := 2, refKind := "call".toList,
    isExternal := false }

def c3ImportRow : ImportRow :=
  { id := 1, filePath := "a.py".toList, aliasName := none,
    targetNamespace := "x".toList, line := none }

def c3AmbRow : AmbiguousRow :=
  { id := 0, referenceId := 5,
    candidateUri := "codescope://r/b.py#callable:g@1".toList, score := 0 }

def c3Store : Store :=
  { symbols := [c3RowA, c3RowB], edges := [c3EdgeRow],
    embeddings := [c3EmbRow], callsiteEmbeddings := [(5, [])],
    unresolved := [c3UnresRow], imports := [c3ImportRow],
    ambiguous := [c3AmbRow],
    fileHash := [("a.py".toList, "h1".toList)] }

/-- C3 (witness): the integrity theorem applied to the concrete store and
    the deletion of `a.py`. -/
theorem deleteFileData_integrity_witness :
    (∀ er ∈ (deleteFileData c3Store ("a.py".toList)).edges,
      (∀ u, SymbolUri.parse er.fromUri = some u → u.path ≠ "a.py".toList) ∧
      (∀ u, SymbolUri.parse er.toUri = some u → u.path ≠ "a.py".toList)) ∧
    (∀ em ∈ (deleteFileData c3Store ("a.py".toList)).embeddings,
      ∀ u, SymbolUri.parse em.uri = some u → u.path ≠ "a.py".toList) ∧
    (∀ sr ∈ (deleteFileData c3Store ("a.py".toList)).symbols,
      sr.path ≠ "a.py".toList) ∧
    (∀ r ∈ (deleteFileData c3Store ("a.py".toList)).unresolved,
      r.filePath ≠ "a.py".toList) ∧
    (∀ i ∈ (deleteFileData c3Store ("a.py".toList)).imports,
      i.filePath ≠ "a.py".toList) ∧
    (∀ a ∈ (deleteFileData c3Store ("a.py".toList)).ambiguous,
      ∀ r ∈ c3Store.unresolved, r.filePath = "a.py".toList →
        a.referenceId ≠ r.id) ∧
    (∀ c ∈ (deleteFileData c3Store ("a.py".toList)).callsiteEmbeddings,
      ∀ r ∈ c3Store.unresolved, r.filePath = "a.py".toList → c.1 ≠ r.id) ∧
    (∀ hrow ∈ (deleteFileData c3Store ("a.py".toList)).fileHash,
      hrow.1 ≠ "a.py".toList) :=
  deleteFileData_integrity c3Store ("a.py".toList) (by decide) (by decide)
    (by decide)

/-! ## C5 — the semantic linker's per-reference contract -/

theorem clamp01_nonneg (q : ℚ) : 0 ≤ clamp01 q := by
  unfold clamp01
  exact le_min (le_max_right q 0) zero_le_one

theorem clamp01_le_one (q : ℚ) : clamp01 q ≤ 1 :=
  min_le_right _ _

theorem clamp01_of_bounds {q : ℚ} (h0 : 0 ≤ q) (h1 : q ≤ 1) :
    clamp01 q = q := by
  unfold clamp01
  rw [max_eq_left h0, min_eq_left h1]

theorem clamp01_idem (q : ℚ) : clamp01 (clamp01 q) = clamp01 q :=
  clamp01_of_bounds (clamp01_nonneg q) (clamp01_le_one q)

theorem sameTriple_symm {a b : EdgeRow} (h : sameTriple a b = true) :
    sameTriple b a = true := by
  simp only [sameTriple, Bool.and_eq_true, decide_eq_true_eq] at h ⊢
  exact ⟨⟨h.1.1.symm, h.1.2.symm⟩, h.2.symm⟩

theorem sameTriple_trans {a b c : EdgeRow} (h1 : sameTriple a b = true)
    (h2 : sameTriple b c = true) : sameTriple a c = true := by
  simp only [sameTriple, Bool.and_eq_true, decide_eq_true_eq] at h1 h2 ⊢
  exact ⟨⟨h1.1.1.trans h2.1.1, h1.1.2.trans h2.1.2⟩, h1.2.trans h2.2⟩

/-- Canonicity of an edge row's URI texts: whatever parses re-prints to the
    same text (rows whose texts do not parse are harmless — every reader
    drops them). -/
def edgeRowCanon (er : EdgeRow) : Bool :=
  (match SymbolUri.parse er.fromUri with
   | some u => decide (u.toUriString = er.fromUri)
   | none => true) &&
  (match SymbolUri.parse er.toUri with
   | some u => decide (u.toUriString = er.toUri)
   | none => true)

theorem insertEdge_rest (st : Store) (e : Edge) :
    (insertEdge st e).symbols = st.symbols ∧
    (insertEdge st e).embeddings = st.embeddings ∧
    (insertEdge st e).callsiteEmbeddings = st.callsiteEmbeddings ∧
    (insertEdge st e).unresolved = st.unresolved ∧
    (insertEdge st e).imports = st.imports ∧
    (insertEdge st e).ambiguous = st.ambiguous ∧
    (insertEdge st e).fileHash = st.fileHash :=
  ⟨rfl, rfl, rfl, rfl, rfl, rfl, rfl⟩

theorem insertEdge_edges_mem {st : Store} {e : Edge} {er : EdgeRow}
    (h : er ∈ (insertEdge st e).edges) : er ∈ st.edges ∨ er = edgeRowOf e := by
  rcases List.mem_append.mp h with h | h
  · exact Or.inl (List.mem_filter.mp h).1
  · exact Or.inr (by simpa using h)

theorem insertEdge_edges_length (st : Store) (e : Edge) :
    (insertEdge st e).edges.length ≤ st.edges.length + 1 := by
  show (st.edges.filter _ ++ [edgeRowOf e]).length ≤ st.edges.length + 1
  rw [List.length_append]
  have := List.length_filter_le (fun x => ! sameTriple x (edgeRowOf e))
    st.edges
  simp only [List.length_cons, List.length_nil]
  omega

theorem insertEdge_uniq {st : Store} {e : Edge}
    (h : st.edges.Pairwise (fun a b => sameTriple a b = false)) :
    (insertEdge st e).edges.Pairwise (fun a b => sameTriple a b = false) := by
  show (st.edges.filter _ ++ [edgeRowOf e]).Pairwise _
  apply List.pairwise_append.mpr
  refine ⟨h.filter _, by simp, ?_⟩
  intro a ha b hb
  have hfa := (List.mem_filter.mp ha).2
  have hb2 : b = edgeRowOf e := by simpa using hb
  subst hb2
  simpa using hfa

theorem insertEdge_canon {st : Store} {e : Edge}
    (hc : st.edges.all edgeRowCanon = true)
    (hfrom : SymbolUri.parse e.fromUri.toUriString = some e.fromUri)
    (hto : SymbolUri.parse e.toUri.toUriString = some e.toUri) :
    (insertEdge st e).edges.all edgeRowCanon = true := by
  apply List.all_eq_true.mpr
  intro er her
  rcases insertEdge_edges_mem her with h | h
  · exact List.all_eq_true.mp hc er h
  · subst h
    unfold edgeRowCanon edgeRowOf
    simp only [hfrom, hto]
    simp

/-- The `find?` of the existing-edge check: on a triple-unique, canonical
    edge list, looking for the parsed edges from `fromU` with target `u` and
    kind `calls` finds exactly the stored row with that triple, read back
    with its clamped confidence. -/
theorem find_existing_parsed :
    ∀ (l : List EdgeRow) (fromU u : SymbolUri) (er : EdgeRow),
      l.Pairwise (fun a b => sameTriple a b = false) →
      (∀ x ∈ l, edgeRowCanon x = true) →
      SymbolUri.parse fromU.toUriString = some fromU →
      SymbolUri.parse u.toUriString = some u →
      er ∈ l →
      er.fromUri = fromU.toUriString →
      er.toUri = u.toUriString →
      er.kind = EdgeKind.Calls →
      ((l.filter (fun x => decide (x.fromUri = fromU.toUriString))).filterMap
          rowToEdge).find?
        (fun e => decide (e.toUri = u) && decide (e.kind = EdgeKind.Calls)) =
        some (Edge.withConfidence fromU u EdgeKind.Calls er.confidence) := by
  intro l
  induction l with
  | nil => intro _ _ er _ _ _ _ her; exact absurd her (by simp)
  | cons x xs ih =>
    intro fromU u er huniq hcanon hfromC huC her hf ht hk
    rcases List.pairwise_cons.mp huniq with ⟨hx, hxs⟩
    rcases List.mem_cons.mp her with heq | hmem
    · -- the head is the matching row
      subst heq
      rw [List.filter_cons_of_pos (by simp [hf])]
      have hrow : rowToEdge er =
          some (Edge.withConfidence fromU u EdgeKind.Calls er.confidence) := by
        unfold rowToEdge
        rw [hf, hfromC, ht, huC, hk]
        rfl
      simp only [List.filterMap_cons, hrow]
      exact List.find?_cons_of_pos _ (by simp [Edge.withConfidence])
    · -- the head is another row; it cannot satisfy the predicate
      by_cases hxf : x.fromUri = fromU.toUriString
      · rw [List.filter_cons_of_pos (by simp [hxf])]
        cases hxe : rowToEdge x with
        | none =>
          simp only [List.filterMap_cons, hxe]
          exact ih fromU u er hxs (fun y hy => hcanon y (by simp [hy]))
            hfromC huC hmem hf ht hk
        | some e1 =>
          simp only [List.filterMap_cons, hxe]
          have hpred : (decide (e1.toUri = u) &&
              decide (e1.kind = EdgeKind.Calls)) = false := by
            by_contra hc2
            have hc3 : e1.toUri = u ∧ e1.kind = EdgeKind.Calls := by
              have := Bool.not_eq_false _ |>.mp hc2
              simpa using this
            -- reconstruct that x shares er's triple
            unfold rowToEdge at hxe
            cases hpf : SymbolUri.parse x.fromUri with
            | none => rw [hpf] at hxe; simp at hxe
            | some f1 =>
              cases hpt : SymbolUri.parse x.toUri with
              | none => rw [hpf, hpt] at hxe; simp at hxe
              | some t1 =>
                rw [hpf, hpt] at hxe
                have hxe2 : Edge.withConfidence f1 t1 x.kind x.confidence
                    = e1 := by simpa using hxe
                have ht1 : t1 = u := by
                  have := hc3.1
                  rw [← hxe2] at this
                  simpa [Edge.withConfidence] using this
                have hkx : x.kind = EdgeKind.Calls := by
                  have := hc3.2
                  rw [← hxe2] at this
                  simpa [Edge.withConfidence] using this
                have hcx := hcanon x (by simp)
                unfold edgeRowCanon at hcx
                rw [hpt] at hcx
                simp only [Bool.and_eq_true, decide_eq_true_eq] at hcx
                have hxt : x.toUri = u.toUriString := by
                  rw [← hcx.2, ht1]
                have hsame : sameTriple x er = true := by
                  simp only [sameTriple, Bool.and_eq_true, decide_eq_true_eq]
                  exact ⟨⟨hxf.trans hf.symm, hxt.trans ht.symm⟩,
                    hkx.trans hk.symm⟩
                have := hx er hmem
                rw [hsame] at this
                exact absurd this (by simp)
          rw [List.find?_cons_of_neg _ (by simp [hpred])]
          exact ih fromU u er hxs (fun y hy => hcanon y (by simp [hy]))
            hfromC huC hmem hf ht hk
      · rw [List.filter_cons_of_neg (by simp [hxf])]
        exact ih fromU u er hxs (fun y hy => hcanon y (by simp [hy]))
          hfromC huC hmem hf ht hk

/-- Bookkeeping facts of the edge-writing loop, by induction along the
    selected matches: non-edge tables unchanged, at most one insert per
    match, a false `matched` flag means nothing was inserted, and every edge
    row not present before is a `calls` edge built from one of the
    matches. -/
theorem writeMatches_facts (r : UnresolvedRow) :
    ∀ (l : List (SymbolUri × ℚ)) (st : Store) (m : Bool)
      (res : Store × Bool), writeMatches r st m l = some res →
      (res.1.symbols = st.symbols ∧ res.1.embeddings = st.embeddings ∧
        res.1.callsiteEmbeddings = st.callsiteEmbeddings ∧
        res.1.unresolved = st.unresolved ∧ res.1.imports = st.imports ∧
        res.1.ambiguous = st.ambiguous ∧ res.1.fileHash = st.fileHash) ∧
      res.1.edges.length ≤ st.edges.length + l.length ∧
      (res.2 = false → m = false ∧ res.1.edges = st.edges) ∧
      (∀ er ∈ res.1.edges, er ∈ st.edges ∨
        ∃ fromU u s, SymbolUri.parse r.fromUri = some fromU ∧ (u, s) ∈ l ∧
          er = edgeRowOf (Edge.withConfidence fromU u EdgeKind.Calls s)) := by
  intro l
  induction l with
  | nil =>
    intro st m res h
    have hres : res = (st, m) := by
      have h2 : some (st, m) = some res := h
      exact (Option.some_inj.mp h2).symm
    subst hres
    exact ⟨⟨rfl, rfl, rfl, rfl, rfl, rfl, rfl⟩, by simp,
      fun hf => ⟨hf, rfl⟩, fun er her => Or.inl her⟩
  | cons p rest ih =>
    intro st m res h
    obtain ⟨u, s⟩ := p
    cases hp : SymbolUri.parse r.fromUri with
    | none => rw [writeMatches, hp] at h; exact absurd h (by simp)
    | some fromU =>
      rw [← hp]
      rw [writeMatches] at h
      simp only [hp] at h
      have hstep : ∀ st2 : Store,
          writeMatches r st2 true rest = some res →
          (st2.symbols = st.symbols ∧ st2.embeddings = st.embeddings ∧
            st2.callsiteEmbeddings = st.callsiteEmbeddings ∧
            st2.unresolved = st.unresolved ∧ st2.imports = st.imports ∧
            st2.ambiguous = st.ambiguous ∧ st2.fileHash = st.fileHash) →
          st2.edges.length ≤ st.edges.length + 1 →
          (∀ er ∈ st2.edges, er ∈ st.edges ∨
            er = edgeRowOf (Edge.withConfidence fromU u EdgeKind.Calls s)) →
          ((res.1.symbols = st.symbols ∧ res.1.embeddings = st.embeddings ∧
            res.1.callsiteEmbeddings = st.callsiteEmbeddings ∧
            res.1.unresolved = st.unresolved ∧ res.1.imports = st.imports ∧
            res.1.ambiguous = st.ambiguous ∧ res.1.fileHash = st.fileHash) ∧
          res.1.edges.length ≤ st.edges.length + ((u, s) :: rest).length ∧
          (res.2 = false → m = false ∧ res.1.edges = st.edges) ∧
          (∀ er ∈ res.1.edges, er ∈ st.edges ∨
            ∃ fromU2 u2 s2, SymbolUri.parse r.fromUri = some fromU2 ∧
              (u2, s2) ∈ (u, s) :: rest ∧
              er = edgeRowOf (Edge.withConfidence fromU2 u2 EdgeKind.Calls
                s2))) := by
        intro st2 h2 hcomp hlen hmem
        obtain ⟨ihc, ihl, ihf, ihm⟩ := ih st2 true res h2
        refine ⟨?_, ?_, ?_, ?_⟩
        · exact ⟨ihc.1.trans hcomp.1, ihc.2.1.trans hcomp.2.1,
            ihc.2.2.1.trans hcomp.2.2.1, ihc.2.2.2.1.trans hcomp.2.2.2.1,
            ihc.2.2.2.2.1.trans hcomp.2.2.2.2.1,
            ihc.2.2.2.2.2.1.trans hcomp.2.2.2.2.2.1,
            ihc.2.2.2.2.2.2.trans hcomp.2.2.2.2.2.2⟩
        · simp only [List.length_cons]
          omega
        · intro hf
          exact absurd (ihf hf).1 (by simp)
        · intro er her
          rcases ihm er her with hmem2 | ⟨fromU2, u2, s2, hp2, hl2, he2⟩
          · rcases hmem er hmem2 with h3 | h3
            · exact Or.inl h3
            · exact Or.inr ⟨fromU, u, s, hp, by simp, h3⟩
          · exact Or.inr ⟨fromU2, u2, s2, hp2, by simp [hl2], he2⟩
      cases hfind : (getEdgesFrom st fromU).find? (fun e =>
          decide (e.toUri = (Edge.withConfidence fromU u EdgeKind.Calls
            s).toUri) && decide (e.kind = (Edge.withConfidence fromU u
              EdgeKind.Calls s).kind)) with
      | some ex =>
        simp only [hfind] at h
        by_cases hle : (Edge.withConfidence fromU u EdgeKind.Calls
            s).confidence ≤ ex.confidence
        · rw [if_pos hle] at h
          obtain ⟨ihc, ihl, ihf, ihm⟩ := ih st m res h
          refine ⟨ihc, by simp only [List.length_cons]; omega, ihf, ?_⟩
          intro er her
          rcases ihm er her with h3 | ⟨fromU2, u2, s2, hp2, hl2, he2⟩
          · exact Or.inl h3
          · exact Or.inr ⟨fromU2, u2, s2, hp2, by simp [hl2], he2⟩
        · rw [if_neg hle] at h
          exact hstep _ h
            ⟨(insertEdge_rest st _).1, (insertEdge_rest st _).2.1,
              (insertEdge_rest st _).2.2.1, (insertEdge_rest st _).2.2.2.1,
              (insertEdge_rest st _).2.2.2.2.1,
              (insertEdge_rest st _).2.2.2.2.2.1,
              (insertEdge_rest st _).2.2.2.2.2.2⟩
            (insertEdge_edges_length st _)
            (fun er her => insertEdge_edges_mem her)
      | none =>
        simp only [hfind] at h
        exact hstep _ h
          ⟨(insertEdge_rest st _).1, (insertEdge_rest st _).2.1,
            (insertEdge_rest st _).2.2.1, (insertEdge_rest st _).2.2.2.1,
            (insertEdge_rest st _).2.2.2.2.1,
            (insertEdge_rest st _).2.2.2.2.2.1,
            (insertEdge_rest st _).2.2.2.2.2.2⟩
          (insertEdge_edges_length st _)
          (fun er her => insertEdge_edges_mem her)

theorem insertEdge_mem_new (st : Store) (e : Edge) :
    edgeRowOf e ∈ (insertEdge st e).edges := by
  simp [insertEdge]

/-- Monotonicity of the edge-writing loop (the I1 skip check): on a
    triple-unique store with canonical URI texts, no pre-existing edge ends
    up with a lower clamped confidence — an insert that would lower one is
    skipped, and an overwrite only raises it. -/
theorem writeMatches_monotone (r : UnresolvedRow) :
    ∀ (l : List (SymbolUri × ℚ)) (st : Store) (m : Bool)
      (res : Store × Bool), writeMatches r st m l = some res →
      st.edges.Pairwise (fun a b => sameTriple a b = false) →
      st.edges.all edgeRowCanon = true →
      (∀ fromU, SymbolUri.parse r.fromUri = some fromU →
        SymbolUri.parse fromU.toUriString = some fromU) →
      (∀ us ∈ l, SymbolUri.parse us.1.toUriString = some us.1) →
      ∀ er ∈ st.edges, ∃ er2 ∈ res.1.edges, sameTriple er2 er = true ∧
        clamp01 er.confidence ≤ clamp01 er2.confidence := by
  intro l
  induction l with
  | nil =>
    intro st m res h _ _ _ _ er her
    have hres : res = (st, m) := by
      have h2 : some (st, m) = some res := h
      exact (Option.some_inj.mp h2).symm
    subst hres
    exact ⟨er, her, sameTriple_refl er, le_refl _⟩
  | cons p rest ih =>
    intro st m res h huniq hcanon hfrom hl
    obtain ⟨u, s⟩ := p
    have hl2 : ∀ us ∈ rest, SymbolUri.parse us.1.toUriString = some us.1 :=
      fun us hus => hl us (by simp [hus])
    have hlu : SymbolUri.parse u.toUriString = some u := hl (u, s) (by simp)
    cases hp : SymbolUri.parse r.fromUri with
    | none => rw [writeMatches, hp] at h; exact absurd h (by simp)
    | some fromU =>
      rw [writeMatches] at h
      simp only [hp] at h
      have hfromC : SymbolUri.parse fromU.toUriString = some fromU :=
        hfrom fromU hp
      have hinsert : writeMatches r
          (insertEdge st (Edge.withConfidence fromU u EdgeKind.Calls s))
          true rest = some res →
          ∀ er ∈ (insertEdge st
            (Edge.withConfidence fromU u EdgeKind.Calls s)).edges,
            ∃ er2 ∈ res.1.edges, sameTriple er2 er = true ∧
              clamp01 er.confidence ≤ clamp01 er2.confidence := by
        intro h2
        exact ih _ true res h2 (insertEdge_uniq huniq)
          (insertEdge_canon hcanon hfromC hlu) hfrom hl2
      cases hfind : (getEdgesFrom st fromU).find? (fun e =>
          decide (e.toUri = (Edge.withConfidence fromU u EdgeKind.Calls
            s).toUri) && decide (e.kind = (Edge.withConfidence fromU u
              EdgeKind.Calls s).kind)) with
      | some ex =>
        simp only [hfind] at h
        by_cases hle : (Edge.withConfidence fromU u EdgeKind.Calls
            s).confidence ≤ ex.confidence
        · rw [if_pos hle] at h
          exact ih st m res h huniq hcanon hfrom hl2
        · rw [if_neg hle] at h
          intro er her
          by_cases hsame : sameTriple er
              (edgeRowOf (Edge.withConfidence fromU u EdgeKind.Calls s))
              = true
          · -- the existing same-triple row: find? read it back clamped
            have hcomp : er.fromUri = fromU.toUriString ∧
                er.toUri = u.toUriString ∧ er.kind = EdgeKind.Calls := by
              simp only [sameTriple, edgeRowOf, Edge.withConfidence,
                Bool.and_eq_true, decide_eq_true_eq] at hsame
              exact ⟨hsame.1.1, hsame.1.2, hsame.2⟩
            have hfound := find_existing_parsed st.edges fromU u er huniq
              (fun x hx => List.all_eq_true.mp hcanon x hx) hfromC hlu her
              hcomp.1 hcomp.2.1 hcomp.2.2
            have hfind2 : ((st.edges.filter (fun x =>
                decide (x.fromUri = fromU.toUriString))).filterMap
                  rowToEdge).find?
                (fun e => decide (e.toUri = u) &&
                  decide (e.kind = EdgeKind.Calls)) = some ex := hfind
            have hex : ex = Edge.withConfidence fromU u EdgeKind.Calls
                er.confidence := by
              rw [hfound] at hfind2
              exact (Option.some_inj.mp hfind2).symm
            have hexc : ex.confidence = clamp01 er.confidence := by
              rw [hex]; rfl
            have hlt : clamp01 er.confidence < clamp01 s := by
              have h3 := hle
              rw [hexc] at h3
              have h4 : ¬ clamp01 s ≤ clamp01 er.confidence := h3
              exact lt_of_not_le h4
            obtain ⟨er2, hm2, hsame2, hle2⟩ := hinsert h
              (edgeRowOf (Edge.withConfidence fromU u EdgeKind.Calls s))
              (insertEdge_mem_new st _)
            refine ⟨er2, hm2, sameTriple_trans hsame2 (sameTriple_symm hsame),
              ?_⟩
            have hcs : (edgeRowOf (Edge.withConfidence fromU u EdgeKind.Calls
                s)).confidence = clamp01 s := rfl
            rw [hcs, clamp01_idem] at hle2
            exact le_trans (le_of_lt hlt) hle2
          · -- er keeps its row through the insert
            have her2 : er ∈ (insertEdge st
                (Edge.withConfidence fromU u EdgeKind.Calls s)).edges := by
              apply List.mem_append.mpr
              exact Or.inl (List.mem_filter.mpr ⟨her, by simp [hsame]⟩)
            exact hinsert h er her2
      | none =>
        simp only [hfind] at h
        intro er her
        by_cases hsame : sameTriple er
            (edgeRowOf (Edge.withConfidence fromU u EdgeKind.Calls s)) = true
        · -- impossible: find? would have found er's parsed edge
          have hcomp : er.fromUri = fromU.toUriString ∧
              er.toUri = u.toUriString ∧ er.kind = EdgeKind.Calls := by
            simp only [sameTriple, edgeRowOf, Edge.withConfidence,
              Bool.and_eq_true, decide_eq_true_eq] at hsame
            exact ⟨hsame.1.1, hsame.1.2, hsame.2⟩
          have hfound := find_existing_parsed st.edges fromU u er huniq
            (fun x hx => List.all_eq_true.mp hcanon x hx) hfromC hlu her
            hcomp.1 hcomp.2.1 hcomp.2.2
          have hfind2 : ((st.edges.filter (fun x =>
              decide (x.fromUri = fromU.toUriString))).filterMap
                rowToEdge).find?
              (fun e => decide (e.toUri = u) &&
                decide (e.kind = EdgeKind.Calls)) = none := hfind
          rw [hfound] at hfind2
          exact absurd hfind2 (by simp)
        · have her2 : er ∈ (insertEdge st
              (Edge.withConfidence fromU u EdgeKind.Calls s)).edges := by
            apply List.mem_append.mpr
            exact Or.inl (List.mem_filter.mpr ⟨her, by simp [hsame]⟩)
          exact hinsert h er her2

theorem semMatches_mem {sim : List ℚ → List ℚ → ℚ} {threshold : ℚ}
    {cached : List (SymbolUri × List ℚ)} {vector : List ℚ}
    {us : SymbolUri × ℚ} (h : us ∈ semMatches sim threshold cached vector) :
    ∃ pr ∈ cached, us = (pr.1, sim vector pr.2) ∧
      threshold ≤ sim vector pr.2 := by
  obtain ⟨pr, hpr, hf⟩ := List.mem_filterMap.mp h
  by_cases hc : threshold ≤ sim vector pr.2
  · refine ⟨pr, hpr, ?_, hc⟩
    have hf2 : some (pr.1, sim vector pr.2) = some us := by
      rw [← hf]
      simp [if_pos hc]
    exact (Option.some_inj.mp hf2).symm
  · have hf2 : (none : Option (SymbolUri × ℚ)) = some us := by
      rw [← hf]
      simp [if_neg hc]
    exact absurd hf2 (by simp)

/-- C5: contract of the semantic linker's per-reference processing.  On a
    triple-unique store with canonical URI texts, when the iteration
    completes: every newly inserted edge row is a `calls` edge from the
    reference's parsed `from_uri` to a cached symbol with similarity at
    least the threshold, its stored confidence is the clamped similarity,
    and it is drawn from the top five of the descending-sorted matches; at
    most five rows are added; the selected list is sorted descending; no
    pre-existing edge's clamped confidence is lowered (the I1 skip); the
    unresolved row is deleted when the `matched` flag is set and is marked
    external otherwise, in which case no edge changed at all; and the
    call-site embedding is persisted under the reference's id. -/
theorem semanticLinker_contract (sim : List ℚ → List ℚ → ℚ) (threshold : ℚ)
    (cached : List (SymbolUri × List ℚ)) (st : Store) (r : UnresolvedRow)
    (vector : List ℚ) (st2 : Store) (matched : Bool)
    (h : processReference sim threshold cached st r vector =
      some (st2, matched))
    (huniq : st.edges.Pairwise (fun a b => sameTriple a b = false))
    (hcanonE : st.edges.all edgeRowCanon = true)
    (hfrom : ∀ fromU, SymbolUri.parse r.fromUri = some fromU →
      SymbolUri.parse fromU.toUriString = some fromU)
    (hcached : ∀ pr ∈ cached,
      SymbolUri.parse pr.1.toUriString = some pr.1) :
    (∀ er ∈ st2.edges, er ∉ st.edges →
      ∃ fromU pr, SymbolUri.parse r.fromUri = some fromU ∧ pr ∈ cached ∧
        threshold ≤ sim vector pr.2 ∧
        er = edgeRowOf (Edge.withConfidence fromU pr.1 EdgeKind.Calls
          (sim vector pr.2)) ∧
        (pr.1, sim vector pr.2) ∈ (sortBy (fun a b => decide (b.2 ≤ a.2))
          (semMatches sim threshold cached vector)).take 5) ∧
    st2.edges.length ≤ st.edges.length + 5 ∧
    List.Pairwise (fun a b => b.2 ≤ a.2)
      ((sortBy (fun a b => decide (b.2 ≤ a.2))
        (semMatches sim threshold cached vector)).take 5) ∧
    (∀ er ∈ st.edges, ∃ er2 ∈ st2.edges, sameTriple er2 er = true ∧
      clamp01 er.confidence ≤ clamp01 er2.confidence) ∧
    (matched = true → st2.unresolved =
      st.unresolved.filter (fun x => ! decide (x.id = r.id))) ∧
    (matched = false → st2.unresolved =
      st.unresolved.map (fun x =>
        if x.id = r.id then { x with isExternal := true } else x) ∧
      st2.edges = st.edges) ∧
    (r.id, vector) ∈ st2.callsiteEmbeddings := by
  obtain ⟨res, hwm, hpair⟩ := Option.map_eq_some.mp h
  have hm : matched = res.2 := (congrArg Prod.snd hpair).symm
  have hst2 : st2 = (if res.2 then deleteUnresolved res.1 r.id
      else markUnresolvedAsExternal res.1 r.id) := by
    have h2 := congrArg Prod.fst hpair
    simpa using h2.symm
  have hedges1 : (insertCallsiteEmbedding st r.id vector).edges = st.edges :=
    rfl
  have hunres1 : (insertCallsiteEmbedding st r.id vector).unresolved =
    st.unresolved := rfl
  have hst2edges : st2.edges = res.1.edges := by
    rw [hst2]
    by_cases hb : res.2 = true
    · rw [if_pos hb]; rfl
    · rw [if_neg hb]; rfl
  have hst2cs : st2.callsiteEmbeddings = res.1.callsiteEmbeddings := by
    rw [hst2]
    by_cases hb : res.2 = true
    · rw [if_pos hb]; rfl
    · rw [if_neg hb]; rfl
  obtain ⟨hcomp, hlen, hfalse, hmem⟩ := writeMatches_facts r _
    (insertCallsiteEmbedding st r.id vector) false res hwm
  have htake : ∀ us ∈ (sortBy (fun a b => decide (b.2 ≤ a.2))
      (semMatches sim threshold cached vector)).take 5,
      ∃ pr ∈ cached, us = (pr.1, sim vector pr.2) ∧
        threshold ≤ sim vector pr.2 := by
    intro us hus
    have h1 : us ∈ sortBy (fun a b => decide (b.2 ≤ a.2))
        (semMatches sim threshold cached vector) := List.mem_of_mem_take hus
    exact semMatches_mem ((sortBy_mem _ _ us).mp h1)
  refine ⟨?_, ?_, ?_, ?_, ?_, ?_, ?_⟩
  · -- (a) inserted edges
    intro er her hnot
    rw [hst2edges] at her
    rcases hmem er her with h1 | ⟨fromU, u, s, hp, hus, he⟩
    · rw [hedges1] at h1; exact absurd h1 hnot
    · obtain ⟨pr, hpr, hus2, hthr⟩ := htake (u, s) hus
      have hu : u = pr.1 := congrArg Prod.fst hus2
      have hs : s = sim vector pr.2 := congrArg Prod.snd hus2
      refine ⟨fromU, pr, hp, hpr, hthr, ?_, ?_⟩
      · rw [he, hu, hs]
      · rw [← hu, ← hs]; exact hus
  · -- (b) at most five inserts
    rw [hst2edges]
    have h5 : ((sortBy (fun a b => decide (b.2 ≤ a.2))
        (semMatches sim threshold cached vector)).take 5).length ≤ 5 := by
      rw [List.length_take]
      omega
    rw [hedges1] at hlen
    omega
  · -- (c) sorted descending
    have hs := sortBy_pairwise (fun (a b : SymbolUri × ℚ) =>
        decide (b.2 ≤ a.2))
      (fun a b => by
        rcases le_total b.2 a.2 with h1 | h1 <;> simp [h1])
      (fun a b c h1 h2 => by
        simp only [decide_eq_true_eq] at h1 h2 ⊢
        exact le_trans h2 h1)
      (semMatches sim threshold cached vector)
    exact ((hs.sublist (List.take_sublist 5 _)).imp
      (fun h1 => by simpa using h1))
  · -- (d) monotonicity
    intro er her
    have hmono := writeMatches_monotone r _
      (insertCallsiteEmbedding st r.id vector) false res hwm
      (by rw [hedges1]; exact huniq) (by rw [hedges1]; exact hcanonE) hfrom
      (fun us hus => by
        obtain ⟨pr, hpr, hus2, _⟩ := htake us hus
        rw [hus2]
        exact hcached pr hpr)
      er (by rw [hedges1]; exact her)
    obtain ⟨er2, hm2, hsame2, hle2⟩ := hmono
    exact ⟨er2, by rw [hst2edges]; exact hm2, hsame2, hle2⟩
  · -- (e) deleted on match
    intro hmt
    rw [hm] at hmt
    rw [hst2, if_pos hmt]
    show res.1.unresolved.filter _ = _
    rw [hcomp.2.2.2.1, hunres1]
  · -- (e2) marked external otherwise, edges unchanged
    intro hmf
    rw [hm] at hmf
    constructor
    · rw [hst2, if_neg (by simp [hmf])]
      show res.1.unresolved.map _ = _
      rw [hcomp.2.2.2.1, hunres1]
    · rw [hst2edges, (hfalse hmf).2, hedges1]
  · -- (f) call-site embedding persisted
    rw [hst2cs, hcomp.2.2.1]
    show (r.id, vector) ∈
      (insertCallsiteEmbedding st r.id vector).callsiteEmbeddings
    show (r.id, vector) ∈ _ ++ [(r.id, vector)]
    simp

/-- Concrete data for the C5 witness: one unresolved reference, an empty
    embedding cache, and a zero similarity oracle. -/
def c5U : SymbolUri :=
  { repo := "r".toList, path := "c.py".toList, kind := .Callable,
    name := "f".toList, line := 1 }

def c5Ref : UnresolvedRow :=
  { id := 9, fromUri := "codescope://r/c.py#callable:f@1".toList,
    name := "n".toList, receiver := none, scopeId := 0,
    filePath := "c.py".toList, line := 1, refKind := "call".toList,
    isExternal := false }

def c5Store : Store :=
  { emptyStore with unresolved := [c5Ref] }

def c5Sim : List ℚ → List ℚ → ℚ := fun _ _ => 0

def c5Out : Store :=
  markUnresolvedAsExternal (insertCallsiteEmbedding c5Store c5Ref.id [])
    c5Ref.id

/-- C5 (witness): the contract applied to the concrete store; with an empty
    cache the reference is marked external and nothing else changes. -/
theorem semanticLinker_contract_witness :
    (∀ er ∈ c5Out.edges, er ∉ c5Store.edges →
      ∃ fromU pr, SymbolUri.parse c5Ref.fromUri = some fromU ∧
        pr ∈ ([] : List (SymbolUri × List ℚ)) ∧
        semThreshold ≤ c5Sim [] pr.2 ∧
        er = edgeRowOf (Edge.withConfidence fromU pr.1 EdgeKind.Calls
          (c5Sim [] pr.2)) ∧
        (pr.1, c5Sim [] pr.2) ∈ (sortBy (fun a b => decide (b.2 ≤ a.2))
          (semMatches c5Sim semThreshold [] [])).take 5) ∧
    c5Out.edges.length ≤ c5Store.edges.length + 5 ∧
    List.Pairwise (fun a b => b.2 ≤ a.2)
      ((sortBy (fun a b => decide (b.2 ≤ a.2))
        (semMatches c5Sim semThreshold [] [])).take 5) ∧
    (∀ er ∈ c5Store.edges, ∃ er2 ∈ c5Out.edges, sameTriple er2 er = true ∧
      clamp01 er.confidence ≤ clamp01 er2.confidence) ∧
    (false = true → c5Out.unresolved =
      c5Store.unresolved.filter (fun x => ! decide (x.id = c5Ref.id))) ∧
    (false = false → c5Out.unresolved =
      c5Store.unresolved.map (fun x =>
        if x.id = c5Ref.id then { x with isExternal := true } else x) ∧
      c5Out.edges = c5Store.edges) ∧
    (c5Ref.id, ([] : List ℚ)) ∈ c5Out.callsiteEmbeddings :=
  semanticLinker_contract c5Sim semThreshold [] c5Store c5Ref [] c5Out false
    rfl (by simp [c5Store, emptyStore]) (by simp [c5Store, emptyStore])
    (by
      intro fromU hf
      have h0 : SymbolUri.parse c5Ref.fromUri = some c5U := by decide
      rw [h0] at hf
      have h1 : c5U = fromU := Option.some_inj.mp hf
      rw [← h1]
      decide)
    (by simp)

/-! ### C2: URI round-trip -/

theorem natToDigitsGo_eq (fuel : Nat) : ∀ n acc, n ≤ fuel →
    natToDigitsGo fuel n acc = digitsRec n ++ acc := by
  induction fuel with
  | zero =>
    intro n acc h
    have hn : n = 0 := Nat.le_zero.mp h
    subst hn
    rw [digitsRec]
    simp [natToDigitsGo]
  | succ fuel ih =>
    intro n acc h
    rw [digitsRec]
    by_cases h10 : n < 10
    · simp [natToDigitsGo, h10]
    · have hdiv : n / 10 ≤ fuel := by
        have := Nat.div_lt_self (by omega : 0 < n) (by omega : 1 < 10)
        omega
      simp only [natToDigitsGo, if_neg h10, dif_neg h10]
      rw [ih (n / 10) _ hdiv]
      simp

theorem natToDigits_eq (n : Nat) : natToDigits n = digitsRec n := by
  have := natToDigitsGo_eq n n [] le_rfl
  simpa [natToDigits] using this

theorem digitChar_facts (m : Nat) (h : m < 10) :
    48 ≤ (Nat.digitChar m).toNat ∧ (Nat.digitChar m).toNat ≤ 57 ∧
    (Nat.digitChar m).toNat - 48 = m ∧ isDigitChar (Nat.digitChar m) = true := by
  interval_cases m <;> decide

theorem digitsRec_mem (n : Nat) : ∀ c ∈ digitsRec n,
    48 ≤ c.toNat ∧ c.toNat ≤ 57 := by
  induction n using Nat.strong_induction_on with
  | _ n ih =>
    intro c hc
    rw [digitsRec] at hc
    by_cases h10 : n < 10
    · rw [dif_pos h10] at hc
      have := digitChar_facts n h10
      simp only [List.mem_singleton] at hc
      subst hc
      exact ⟨this.1, this.2.1⟩
    · rw [dif_neg h10] at hc
      rcases List.mem_append.mp hc with h1 | h2
      · exact ih (n / 10) (Nat.div_lt_self (by omega) (by omega)) c h1
      · simp only [List.mem_singleton] at h2
        subst h2
        have h9 : n % 10 < 10 := Nat.mod_lt _ (by omega)
        have := digitChar_facts (n % 10) h9
        exact ⟨this.1, this.2.1⟩

theorem digitsRec_ne_nil (n : Nat) : digitsRec n ≠ [] := by
  rw [digitsRec]
  split <;> simp

theorem parseU32Go_append (l1 l2 : Str) : ∀ acc,
    parseU32Go (l1 ++ l2) acc =
      (parseU32Go l1 acc).bind (fun v => parseU32Go l2 v) := by
  induction l1 with
  | nil => intro acc; simp [parseU32Go]
  | cons c cs ih =>
    intro acc
    simp only [List.cons_append, parseU32Go]
    by_cases hd : isDigitChar c
    · simp only [if_pos hd]
      by_cases hv : acc * 10 + (c.toNat - 48) < 4294967296
      · simp only [if_pos hv]
        exact ih _
      · simp [if_neg hv]
    · simp [if_neg hd]

theorem parseU32Go_digitsRec (n : Nat) (h : n < 4294967296) :
    parseU32Go (digitsRec n) 0 = some n := by
  induction n using Nat.strong_induction_on with
  | _ n ih =>
    rw [digitsRec]
    by_cases h10 : n < 10
    · rw [dif_pos h10]
      have hf := digitChar_facts n h10
      simp only [parseU32Go, hf.2.2.2, if_pos, Nat.zero_mul, Nat.zero_add]
      rw [hf.2.2.1]
      simp [h]
    · rw [dif_neg h10]
      rw [parseU32Go_append]
      have hdivlt : n / 10 < n := Nat.div_lt_self (by omega) (by omega)
      have hdiv32 : n / 10 < 4294967296 := by omega
      rw [ih (n / 10) hdivlt hdiv32]
      have h9 : n % 10 < 10 := Nat.mod_lt _ (by omega)
      have hf := digitChar_facts (n % 10) h9
      simp only [Option.some_bind, parseU32Go, hf.2.2.2, if_pos]
      rw [hf.2.2.1]
      have hval : n / 10 * 10 + n % 10 = n := by omega
      rw [hval]
      simp [h]

theorem parseU32_digitsRec (n : Nat) (h : n < 4294967296) :
    parseU32 (digitsRec n) = some n := by
  obtain ⟨c, cs, hd⟩ := List.exists_cons_of_ne_nil (digitsRec_ne_nil n)
  have hc : 48 ≤ c.toNat ∧ c.toNat ≤ 57 :=
    digitsRec_mem n c (hd ▸ List.mem_cons_self c cs)
  have hne : c ≠ '+' := by
    intro he
    rw [he] at hc
    revert hc
    decide
  have hgo := parseU32Go_digitsRec n h
  rw [hd] at hgo ⊢
  unfold parseU32
  simp only [List.head?_cons]
  rw [if_neg (by simpa using hne)]
  exact hgo

theorem splitOnce_append (sep : Char) (l1 l2 : Str) (h : sep ∉ l1) :
    splitOnce sep (l1 ++ sep :: l2) = some (l1, l2) := by
  induction l1 with
  | nil => simp [splitOnce]
  | cons c cs ih =>
    have hc : c ≠ sep := fun he => h (he ▸ List.mem_cons_self c cs)
    have hcs : sep ∉ cs := fun hm => h (List.mem_cons_of_mem c hm)
    simp [splitOnce, hc, ih hcs]

theorem rsplitOnce_append (sep : Char) (l1 l2 : Str) (h : sep ∉ l2) :
    rsplitOnce sep (l1 ++ sep :: l2) = some (l1, l2) := by
  have hrev : (l1 ++ sep :: l2).reverse = l2.reverse ++ sep :: l1.reverse := by
    simp
  have hmem : sep ∉ l2.reverse := by simpa using h
  rw [rsplitOnce, hrev, splitOnce_append sep _ _ hmem]
  simp

theorem dropLead_append (p rest : Str) : dropLead p (p ++ rest) = some rest := by
  induction p with
  | nil => simp [dropLead]
  | cons c cs ih => simp [dropLead, ih]

theorem asStr_no_sep (k : SymbolKind) :
    ':' ∉ k.asStr ∧ '#' ∉ k.asStr := by
  cases k <;> decide

theorem fromStr_asStr (k : SymbolKind) :
    SymbolKind.fromStr k.asStr = some k := by
  cases k <;> decide

/-- C2: URI round-trip.  For every SymbolUri u = (repo, path, kind, name,
    line) where line is in u32 range and the components avoid the forbidden
    separators (repo contains no slash and no hash, path contains no hash,
    name contains no at-sign), parsing the rendered URI string succeeds and
    returns u itself. -/
theorem uri_roundtrip (u : SymbolUri)
    (_h1 : 1 ≤ u.line) (h2 : u.line < 4294967296)
    (hr1 : '/' ∉ u.repo) (hr2 : '#' ∉ u.repo) (hp : '#' ∉ u.path)
    (hn : '@' ∉ u.name) :
    SymbolUri.parse u.toUriString = some u := by
  obtain ⟨repo, path, kind, name, line⟩ := u
  simp only at h2 hr1 hr2 hp hn
  have hstr : SymbolUri.toUriString ⟨repo, path, kind, name, line⟩ =
      "codescope://".toList ++
        ((repo ++ '/' :: path) ++ '#' ::
          ((SymbolKind.asStr kind ++ ':' :: name) ++
            '@' :: digitsRec line)) := by
    unfold SymbolUri.toUriString
    rw [natToDigits_eq]
    simp [List.append_assoc]
  rw [hstr]
  unfold SymbolUri.parse
  rw [dropLead_append]
  simp only [Option.some_bind]
  have hm1 : '#' ∉ repo ++ '/' :: path := by
    simp only [List.mem_append, List.mem_cons]
    push_neg
    exact ⟨hr2, by decide, hp⟩
  rw [splitOnce_append '#' _ _ hm1]
  simp only [Option.some_bind]
  rw [splitOnce_append '/' _ _ hr1]
  simp only [Option.some_bind]
  have hm2 : '@' ∉ digitsRec line := by
    intro hmem
    have := digitsRec_mem line _ hmem
    revert this
    decide
  rw [rsplitOnce_append '@' _ _ hm2]
  simp only [Option.some_bind]
  rw [splitOnce_append ':' _ _ (asStr_no_sep kind).1]
  simp only [Option.some_bind]
  rw [fromStr_asStr]
  simp only [Option.some_bind]
  rw [parseU32_digitsRec line h2]
  rfl

/-- A concrete URI for the round-trip witness. -/
def c2U : SymbolUri :=
  { repo := "r".toList, path := "a/b.py".toList, kind := .Callable,
    name := "f".toList, line := 7 }

/-- C2 (witness): the round trip at a concrete URI. -/
theorem uri_roundtrip_witness :
    SymbolUri.parse (SymbolUri.toUriString c2U) = some c2U :=
  uri_roundtrip c2U (by decide) (by decide) (by decide) (by decide)
    (by decide) (by decide)

/-! ### C7: chunker coverage and minimum chunk size -/

set_option maxRecDepth 10000 in
/-- C7 (counterexample): with settings (100, 20), a file of one hundred
    97-bytes, a newline and fifty 98-bytes produces a single chunk holding
    only the first line; the fifty trailing 98-bytes are in no chunk, so
    concatenating the chunks (with or without overlap removal) does not
    reconstruct the input: a final carry under MIN_CHUNK_SIZE is silently
    dropped even when the file has other chunks. -/
theorem c7_counterexample :
    (splitIntoChunks (withSettings 100 20).1 (withSettings 100 20).2
        (List.replicate 100 97 ++ 10 :: List.replicate 50 98) =
      [{ content := List.replicate 100 97, startLine := 1, endLine := 1 }]) ∧
    98 ∈ (List.replicate 100 97 ++ 10 :: List.replicate 50 98 : Bytes) ∧
    ∀ ch ∈ splitIntoChunks (withSettings 100 20).1 (withSettings 100 20).2
        (List.replicate 100 97 ++ 10 :: List.replicate 50 98),
      98 ∉ ch.content := by decide

/-- One loop iteration preserves the chunk minimum size: the break branch
    emits a prefix longer than 100 bytes, the force branch a chunk of at
    least chunk_size bytes. -/
theorem chunkLine_min (chunkSize overlap : Nat) (h : 100 ≤ chunkSize)
    (st : ChunkState) (idx : Nat) (line : Bytes)
    (hinv : ∀ ch ∈ st.chunks, 100 ≤ ch.content.length) :
    ∀ ch ∈ (chunkLine chunkSize overlap st idx line).chunks,
      100 ≤ ch.content.length := by
  intro ch hch
  unfold chunkLine at hch
  simp only at hch
  by_cases hfull : chunkSize ≤ (if st.cur = [] then line
      else st.cur ++ 10 :: line).length
  · rw [if_pos hfull] at hch
    by_cases hbr : findBreakPoint chunkSize (if st.cur = [] then line
        else st.cur ++ 10 :: line) < (if st.cur = [] then line
        else st.cur ++ 10 :: line).length ∧
        100 < findBreakPoint chunkSize (if st.cur = [] then line
        else st.cur ++ 10 :: line)
    · rw [if_pos hbr] at hch
      simp only [List.mem_append, List.mem_singleton] at hch
      rcases hch with hold | hnew
      · exact hinv ch hold
      · subst hnew
        simp only [List.length_take]
        omega
    · rw [if_neg hbr] at hch
      simp only [List.mem_append, List.mem_singleton] at hch
      rcases hch with hold | hnew
      · exact hinv ch hold
      · subst hnew
        simpa using le_trans h hfull
  · rw [if_neg hfull] at hch
    exact hinv ch hch

/-- The whole line loop preserves the chunk minimum size. -/
theorem foldl_chunkLine_min (chunkSize overlap : Nat) (h : 100 ≤ chunkSize)
    (l : List (Nat × Bytes)) : ∀ st : ChunkState,
    (∀ ch ∈ st.chunks, 100 ≤ ch.content.length) →
    ∀ ch ∈ (l.foldl (fun st p => chunkLine chunkSize overlap st p.1 p.2)
        st).chunks, 100 ≤ ch.content.length := by
  induction l with
  | nil => intro st hinv; exact hinv
  | cons p t ih =>
    intro st hinv
    exact ih _ (chunkLine_min chunkSize overlap h st p.1 p.2 hinv)

/-- C7 (amended): with chunk_size at least MIN_CHUNK_SIZE (as with_settings
    guarantees), a file at most chunk_size bytes long becomes chunks that
    are the whole file, and for a larger file every emitted chunk has at
    least MIN_CHUNK_SIZE (100) bytes.  The coverage half of the original
    claim is false: the final carry is emitted only when it reaches 100
    bytes and is otherwise dropped (see the counterexample). -/
theorem splitIntoChunks_min_size (chunkSize overlap : Nat) (content : Bytes)
    (h : 100 ≤ chunkSize) :
    (content.length ≤ chunkSize →
      ∀ ch ∈ splitIntoChunks chunkSize overlap content,
        ch.content = content) ∧
    (chunkSize < content.length →
      ∀ ch ∈ splitIntoChunks chunkSize overlap content,
        100 ≤ ch.content.length) := by
  constructor
  · intro hsmall ch hch
    unfold splitIntoChunks at hch
    simp only at hch
    by_cases hnil : rustLinesB content = []
    · rw [if_pos hnil] at hch
      simp at hch
    · rw [if_neg hnil, if_pos hsmall] at hch
      simp only [List.mem_singleton] at hch
      subst hch
      rfl
  · intro hbig ch hch
    unfold splitIntoChunks at hch
    simp only at hch
    by_cases hnil : rustLinesB content = []
    · rw [if_pos hnil] at hch
      simp at hch
    · rw [if_neg hnil, if_neg (by omega : ¬ content.length ≤ chunkSize)]
        at hch
      set final := (rustLinesB content).enum.foldl
        (fun st p => chunkLine chunkSize overlap st p.1 p.2)
        { chunks := [], cur := [], chunkStartLine := 1, currentLine := 0 }
        with hfinal
      have hbase : ∀ c ∈ (⟨[], [], 1, 0⟩ : ChunkState).chunks,
          100 ≤ c.content.length := by simp
      have hloop := foldl_chunkLine_min chunkSize overlap h
        (rustLinesB content).enum _ hbase
      rw [← hfinal] at hloop
      by_cases hcarry : final.cur ≠ [] ∧ 100 ≤ final.cur.length
      · rw [if_pos hcarry] at hch
        simp only [List.mem_append, List.mem_singleton] at hch
        rcases hch with hold | hnew
        · exact hloop ch hold
        · subst hnew
          exact hcarry.2
      · rw [if_neg hcarry] at hch
        exact hloop ch hch

/-- C7 (witness): the amended theorem at settings (1000, 100) on the
    two-byte file [97, 98]. -/
theorem splitIntoChunks_min_size_witness :
    (100 ≤ 1000) ∧
    (((97 :: 98 :: [] : Bytes).length ≤ 1000 →
      ∀ ch ∈ splitIntoChunks 1000 100 (97 :: 98 :: []),
        ch.content = 97 :: 98 :: []) ∧
    (1000 < (97 :: 98 :: [] : Bytes).length →
      ∀ ch ∈ splitIntoChunks 1000 100 (97 :: 98 :: []),
        100 ≤ ch.content.length)) :=
  ⟨by decide, splitIntoChunks_min_size 1000 100 (97 :: 98 :: []) (by decide)⟩

end Coderev
